import Mathlib

/-!
# OrderBook matching engine: shallow embedding and verification

This file embeds the matching engine of `orderbook/book.py` (class
`OrderBook`) in Lean 4 and proves the stated properties of its
specification.  Python integers are modelled as `Int`; Python dicts
(which preserve insertion order) as association lists; exceptions
(`KeyError` from `transactions[k] += v`, `AssertionError` from
`assert record.quantity >= 0`, `ZeroDivisionError` from `%`) as an
`Option` result where `none` marks a raised exception.

The classes `Order`, `OrderBookRecord` and `Transaction`, and the
comparison used by the `SortedList` sides, live in repository files that
are not part of the reviewed source; their definitions below are
modelled from the specification and marked as such.
-/

namespace OrderBookModel

/-- Modelled from the spec: an `Order` is an immutable submission request
with a unique id, a side, an integer price, an integer quantity > 0 and a
maximum visible ("peak") size > 0.  Field names `order_id`, `is_buy`,
`price`, `quantity` follow their uses in `book.py`; the maximum-peak
field (read by the `OrderBookRecord` constructor) is named `peak_size`. -/
structure Order where
  order_id : Int
  is_buy : Bool
  price : Int
  quantity : Int
  peak_size : Int
  deriving Repr, DecidableEq

/-- The resting-order record mutated in place by `book.py`.  Field names
follow their uses in `book.py`: `order_id`, `price`, `quantity`
(remaining quantity), `max_peak_size`, `current_peak_size` (visible
quantity), `timestamp` (priority time), `order_priority` (tie-break
sequence set by `__fix_empty_records`). -/
structure OrderBookRecord where
  order_id : Int
  price : Int
  quantity : Int
  max_peak_size : Int
  current_peak_size : Int
  timestamp : Int
  order_priority : Int
  deriving Repr, DecidableEq

/-- Modelled from the spec: `OrderBookRecord(order, timestamp)` creates a
resting entry from an order, with `visible_quantity = min(quantity,
max_peak)`, `priority_time` the given clock value, and a fresh tie-break
sequence. -/
def OrderBookRecord.fromOrder (o : Order) (ts : Int) : OrderBookRecord :=
  { order_id := o.order_id
    price := o.price
    quantity := o.quantity
    max_peak_size := o.peak_size
    current_peak_size := min o.quantity o.peak_size
    timestamp := ts
    order_priority := 0 }

/-- Modelled from the spec: an emitted trade record.  The constructor is
called in `book.py` as `Transaction(buy_id, sell_id, price, volume)`. -/
structure Transaction where
  buy_id : Int
  sell_id : Int
  price : Int
  volume : Int
  deriving Repr, DecidableEq

/-- Modelled from the spec: price rank for the side ordering — "best"
price first means highest first for bids, lowest first for asks. -/
def priceRank (isBuySide : Bool) (p : Int) : Int :=
  if isBuySide then -p else p

/-- Lexicographic order on quadruples of integers, the last component
compared with `≤`. -/
def lex4 (a b : Int × Int × Int × Int) : Prop :=
  a.1 < b.1 ∨ (a.1 = b.1 ∧ (a.2.1 < b.2.1 ∨ (a.2.1 = b.2.1 ∧
    (a.2.2.1 < b.2.2.1 ∨ (a.2.2.1 = b.2.2.1 ∧ a.2.2.2 ≤ b.2.2.2)))))

instance lex4.decidable (a b : Int × Int × Int × Int) : Decidable (lex4 a b) := by
  unfold lex4; infer_instance

/-- Modelled from the spec: the priority key of a resting entry on a
side: best price rank first, then earliest priority time, then the
tie-break sequence, then the id. -/
def recKey (isBuySide : Bool) (r : OrderBookRecord) : Int × Int × Int × Int :=
  (priceRank isBuySide r.price, r.timestamp, r.order_priority, r.order_id)

/-- Modelled from the spec: the total order used by a side's
`SortedList`. -/
def recLE (isBuySide : Bool) (a b : OrderBookRecord) : Prop :=
  lex4 (recKey isBuySide a) (recKey isBuySide b)

instance recLE.decidable (s : Bool) : DecidableRel (recLE s) := by
  intro a b; unfold recLE; infer_instance

theorem lex4_total (a b : Int × Int × Int × Int) : lex4 a b ∨ lex4 b a := by
  unfold lex4; omega

theorem lex4_trans {a b c : Int × Int × Int × Int}
    (h₁ : lex4 a b) (h₂ : lex4 b c) : lex4 a c := by
  unfold lex4 at *; omega

instance recLE.isTotal (s : Bool) : IsTotal OrderBookRecord (recLE s) :=
  ⟨fun a b => lex4_total (recKey s a) (recKey s b)⟩

instance recLE.isTrans (s : Bool) : IsTrans OrderBookRecord (recLE s) :=
  ⟨fun _ _ _ h₁ h₂ => lex4_trans h₁ h₂⟩

/-- The `OrderBook` state: the two `SortedList` sides and the logical
clock `timestamp`. -/
structure OrderBook where
  buy : List OrderBookRecord
  sell : List OrderBookRecord
  timestamp : Int
  deriving Repr, DecidableEq

/-- `OrderBook.__init__`: empty sides, clock 0. -/
def OrderBook.empty : OrderBook := { buy := [], sell := [], timestamp := 0 }

/-- The per-call fill dictionary `transactions: Dict[Tuple[int, int], int]`,
keyed by `(record.order_id, record.price)`.  Python dicts preserve
insertion order, so it is an association list. -/
abbrev TxDict := List ((Int × Int) × Int)

/-- Python `d[k] = v`: overwrite in place if the key is present, else
append at the end. -/
def dictSet (k : Int × Int) (v : Int) : TxDict → TxDict
  | [] => [(k, v)]
  | (k', v') :: rest =>
    if k' = k then (k, v) :: rest else (k', v') :: dictSet k v rest

/-- Python `d[k] += v`: `none` models the `KeyError` raised when the key
is absent. -/
def dictAdd (k : Int × Int) (v : Int) : TxDict → Option TxDict
  | [] => none
  | (k', v') :: rest =>
    if k' = k then some ((k', v' + v) :: rest)
    else (dictAdd k v rest).map (fun d => (k', v') :: d)

/-- `OrderBook.__is_good_price`. -/
def isGoodPrice (order : Order) (record : OrderBookRecord) : Bool :=
  if order.is_buy then order.price ≥ record.price else order.price ≤ record.price

/-- `OrderBook.__unique`: first-occurrence de-duplication. -/
def uniqueList (l : List Int) : List Int :=
  l.foldl (fun res i => if i ∈ res then res else res ++ [i]) []

/-- `OrderBook.__fill_visible_peak_sizes`: walk the records of one price
level in order while the order still needs quantity; fill
`min(current_peak_size, order.quantity)` from each, decrementing the
record's visible and remaining quantity and the order's quantity, and
set the fill into the dictionary under `(order_id, price)`.  Returns the
order's remaining quantity, the updated records and the dictionary. -/
def fillVisiblePeakSizes :
    Int → List OrderBookRecord → TxDict → Int × List OrderBookRecord × TxDict
  | oq, [], txs => (oq, [], txs)
  | oq, r :: rs, txs =>
    if oq = 0 then (oq, r :: rs, txs)
    else
      let filled := min r.current_peak_size oq
      let r' := { r with current_peak_size := r.current_peak_size - filled
                         quantity := r.quantity - filled }
      let txs' := dictSet (r.order_id, r.price) filled txs
      let rest := fillVisiblePeakSizes (oq - filled) rs txs'
      (rest.1, r' :: rest.2.1, rest.2.2)

/-- `OrderBook.__fill_hidden_iceberg_orders`: second walk over the same
records.  A record with more remaining quantity than the order needs
absorbs the whole order and its visible size is recomputed as
`min(max_peak_size - order.quantity % max_peak_size, quantity - order.quantity)`;
otherwise the record's entire remaining quantity is filled.  The record's
timestamp is restamped with the current clock and the fill is added into
the existing dictionary entry (`+=`, a `KeyError` — modelled by `none` —
if absent; `%` by zero would raise, also modelled by `none`). -/
def fillHiddenIcebergOrders (ts : Int) :
    Int → List OrderBookRecord → TxDict →
      Option (Int × List OrderBookRecord × TxDict)
  | oq, [], txs => some (oq, [], txs)
  | oq, r :: rs, txs =>
    if oq = 0 then some (oq, r :: rs, txs)
    else
      let step : Option (Int × Int) :=
        if r.quantity > oq then
          if r.max_peak_size = 0 then none
          else some (min (r.max_peak_size - oq % r.max_peak_size) (r.quantity - oq), oq)
        else some (r.current_peak_size, r.quantity)
      match step with
      | none => none
      | some (peak', filled) =>
        let r' := { r with current_peak_size := peak'
                           quantity := r.quantity - filled
                           timestamp := ts }
        match dictAdd (r.order_id, r.price) filled txs with
        | none => none
        | some txs' =>
          match fillHiddenIcebergOrders ts (oq - filled) rs txs' with
          | none => none
          | some (oq', rs', txs'') => some (oq', r' :: rs', txs'')

/-- `OrderBook.__fix_empty_records`: enumerate the level's records,
assert `quantity >= 0` (`none` models the assertion failing), and for a
record whose visible size reached 0 reset it to
`min(quantity, max_peak_size)`, restamp its timestamp and set its
tie-break sequence to its index. -/
def fixEmptyRecords (ts : Int) :
    Int → List OrderBookRecord → Option (List OrderBookRecord)
  | _, [] => some []
  | i, r :: rs =>
    if r.quantity < 0 then none
    else
      let r' :=
        if r.current_peak_size = 0 then
          { r with current_peak_size := min r.quantity r.max_peak_size
                   timestamp := ts
                   order_priority := i }
        else r
      (fixEmptyRecords ts (i + 1) rs).map (fun l => r' :: l)

/-- Positional write-back of mutated records: Python mutates the records
in place through the references held by a filtered sub-list, so the
records of the enclosing list satisfying the filter predicate are
replaced, in order, by their updated versions. -/
def replaceBy (q : OrderBookRecord → Bool) :
    List OrderBookRecord → List OrderBookRecord → List OrderBookRecord
  | [], _ => []
  | a :: as_, [] => a :: replaceBy q as_ []
  | a :: as_, n :: ns =>
    if q a then n :: replaceBy q as_ ns else a :: replaceBy q as_ (n :: ns)

/-- The price-level loop of `OrderBook.__try_to_fill_an_order`: for each
distinct price, stop if the order's quantity reached 0, else run the
visible pass, the hidden pass and the empty-record fix-up over the
records at that price, writing the mutated records back. -/
def processLevels (ts : Int) :
    List Int → Int → List OrderBookRecord → TxDict →
      Option (Int × List OrderBookRecord × TxDict)
  | [], oq, cands, txs => some (oq, cands, txs)
  | p :: ps, oq, cands, txs =>
    if oq = 0 then some (oq, cands, txs)
    else
      let records := cands.filter (fun x => x.price = p)
      let v := fillVisiblePeakSizes oq records txs
      match fillHiddenIcebergOrders ts v.1 v.2.1 v.2.2 with
      | none => none
      | some (oq₂, recs₂, txs₂) =>
        match fixEmptyRecords ts 0 recs₂ with
        | none => none
        | some recs₃ =>
          processLevels ts ps oq₂
            (replaceBy (fun x => x.price = p) cands recs₃) txs₂

/-- Build the returned `Transaction` list from the accumulated
dictionary: the counterparty record id is the buyer for an incoming sell
and the seller for an incoming buy. -/
def buildTransactions (order : Order) (txs : TxDict) : List Transaction :=
  txs.map (fun kv =>
    if order.is_buy then
      { buy_id := order.order_id, sell_id := kv.1.1
        price := kv.1.2, volume := kv.2 }
    else
      { buy_id := kv.1.1, sell_id := order.order_id
        price := kv.1.2, volume := kv.2 })

/-- `OrderBook.__try_to_fill_an_order`: match the order against the
opposite side's crossable records level by level, drop the records whose
quantity reached 0, rebuild the opposite `SortedList`, and return the
order's remaining quantity, the new book and the transactions. -/
def tryToFillAnOrder (ts : Int) (order : Order) (book : OrderBook) :
    Option (Int × OrderBook × List Transaction) :=
  let against := if order.is_buy then book.sell else book.buy
  let cands := against.filter (isGoodPrice order)
  match processLevels ts (uniqueList (cands.map (fun x => x.price)))
      order.quantity cands [] with
  | none => none
  | some (oq, cands', txs) =>
    let updated := replaceBy (isGoodPrice order) against cands'
    let rebuilt :=
      List.insertionSort (recLE (!order.is_buy))
        (updated.filter (fun x => x.quantity ≠ 0))
    let book' :=
      if order.is_buy then { book with sell := rebuilt }
      else { book with buy := rebuilt }
    some (oq, book', buildTransactions order txs)

/-- The duplicate-id scan of `add`: the order id already rests on one of
the sides. -/
def isDuplicate (book : OrderBook) (o : Order) : Bool :=
  (book.buy ++ book.sell).any (fun r => r.order_id = o.order_id)

/-- `OrderBook.add`: advance the clock, reject an order whose id already
rests on either side (returning no transactions), otherwise match it and
rest any remainder on its own side.  `none` models an exception escaping
the call. -/
def OrderBook.add (book : OrderBook) (order : Order) :
    Option (List Transaction × OrderBook) :=
  let b := { book with timestamp := book.timestamp + 1 }
  if isDuplicate b order then
    some ([], b)
  else
    match tryToFillAnOrder b.timestamp order b with
    | none => none
    | some (oq, b', txs) =>
      if oq ≠ 0 then
        let record := OrderBookRecord.fromOrder { order with quantity := oq } b.timestamp
        let b'' :=
          if order.is_buy then
            { b' with buy := List.orderedInsert (recLE true) record b'.buy }
          else
            { b' with sell := List.orderedInsert (recLE false) record b'.sell }
        some (txs, b'')
      else some (txs, b')

/-- Run a sequence of submissions from a starting book, returning the
final book and all transactions in order; `none` if any call raises. -/
def runBook : OrderBook → List Order → Option (OrderBook × List Transaction)
  | b, [] => some (b, [])
  | b, o :: os =>
    match b.add o with
    | none => none
    | some (txs, b') =>
      (runBook b' os).map (fun r => (r.1, txs ++ r.2))

/-- Run a sequence of submissions, also accumulating the total submitted
quantity of the accepted (non-duplicate) orders. -/
def runAccepted : OrderBook → List Order → Option (OrderBook × List Transaction × Int)
  | b, [] => some (b, [], 0)
  | b, o :: os =>
    let acc : Int := if isDuplicate b o then 0 else o.quantity
    match b.add o with
    | none => none
    | some (txs, b') =>
      (runAccepted b' os).map (fun r => (r.1, txs ++ r.2.1, acc + r.2.2))

/-- Sum of remaining quantities over a list of records. -/
def sumQty (l : List OrderBookRecord) : Int :=
  (l.map (fun r => r.quantity)).sum

/-- Sum of the volumes of a transaction list. -/
def volSum (l : List Transaction) : Int :=
  (l.map (fun t => t.volume)).sum

/-- Sum of the values of the fill dictionary. -/
def dictVol (d : TxDict) : Int :=
  (d.map (fun kv => kv.2)).sum

/-- The keys of the fill dictionary, in insertion order. -/
def dictKeys (d : TxDict) : List (Int × Int) :=
  d.map (fun kv => kv.1)

/-- Total lookup in the fill dictionary, `0` when the key is absent. -/
def dictGet (k : Int × Int) : TxDict → Int
  | [] => 0
  | (k', v) :: rest => if k' = k then v else dictGet k rest

/-- The dictionary key of a record: `(record.order_id, record.price)`. -/
def recKeyId (r : OrderBookRecord) : Int × Int := (r.order_id, r.price)

/-- Positional quantity decrease, summed over the records carrying a
given dictionary key. -/
def dropSum (k : Int × Int) : List OrderBookRecord → List OrderBookRecord → Int
  | r :: rs, r' :: rs' =>
    (if recKeyId r = k then r.quantity - r'.quantity else 0) + dropSum k rs rs'
  | _, _ => 0

/-- Total remaining quantity of the records carrying a given key. -/
def qtyOfKey (k : Int × Int) (l : List OrderBookRecord) : Int :=
  ((l.filter (fun r => recKeyId r = k)).map (fun r => r.quantity)).sum

/-- All values of the fill dictionary are strictly positive. -/
def DictPos (d : TxDict) : Prop := ∀ kv ∈ d, 0 < kv.2

/-- The invariant of a resting record: positive remaining quantity, and
a positive visible size bounded by the remaining quantity and by the
(positive) maximum peak size. -/
def RecOK (r : OrderBookRecord) : Prop :=
  0 < r.quantity ∧ 0 < r.current_peak_size ∧
    r.current_peak_size ≤ r.quantity ∧
    r.current_peak_size ≤ r.max_peak_size ∧ 0 < r.max_peak_size

/-- The weaker state of a record in the middle of a matching call,
before `__fix_empty_records` and the removal of exhausted records. -/
def RecMid (r : OrderBookRecord) : Prop :=
  0 ≤ r.quantity ∧ 0 ≤ r.current_peak_size ∧
    r.current_peak_size ≤ r.max_peak_size ∧ 0 < r.max_peak_size ∧
    (r.current_peak_size ≤ r.quantity ∨ r.quantity = 0)

theorem RecOK.toMid {r : OrderBookRecord} (h : RecOK r) : RecMid r := by
  obtain ⟨h₁, h₂, h₃, h₄, h₅⟩ := h
  exact ⟨le_of_lt h₁, le_of_lt h₂, h₄, h₅, Or.inl h₃⟩

/-! ### Dictionary lemmas -/

theorem dictGet_eq_zero_of_not_mem {k : Int × Int} :
    ∀ {d : TxDict}, k ∉ dictKeys d → dictGet k d = 0
  | [], _ => rfl
  | (k', v) :: rest, h => by
    simp only [dictKeys, List.map_cons, List.mem_cons] at h
    push_neg at h
    have hne : ¬ k' = k := fun e => h.1 e.symm
    simp only [dictGet, if_neg hne, dictGet_eq_zero_of_not_mem h.2]

theorem dictSet_fresh {k : Int × Int} {v : Int} :
    ∀ {d : TxDict}, k ∉ dictKeys d →
      dictSet k v d = d ++ [(k, v)]
  | [], _ => rfl
  | (k', v') :: rest, h => by
    simp only [dictKeys, List.map_cons, List.mem_cons] at h
    push_neg at h
    have hne : ¬ k' = k := fun e => h.1 e.symm
    simp only [dictSet, if_neg hne, List.cons_append, dictSet_fresh h.2]

theorem dictKeys_append (d₁ d₂ : TxDict) :
    dictKeys (d₁ ++ d₂) = dictKeys d₁ ++ dictKeys d₂ := by
  simp [dictKeys]

theorem dictVol_append (d₁ d₂ : TxDict) :
    dictVol (d₁ ++ d₂) = dictVol d₁ + dictVol d₂ := by
  simp [dictVol]

theorem dictGet_append (k : Int × Int) (d₁ d₂ : TxDict) :
    dictGet k (d₁ ++ d₂) =
      if k ∈ dictKeys d₁ then dictGet k d₁ else dictGet k d₂ := by
  induction d₁ with
  | nil => simp [dictGet, dictKeys]
  | cons kv rest ih =>
    obtain ⟨k', v⟩ := kv
    by_cases h : k' = k
    · subst h
      simp [dictGet, dictKeys]
    · have h₁ : ((k', v) :: rest) ++ d₂ = (k', v) :: (rest ++ d₂) := rfl
      rw [h₁]
      show (if k' = k then v else dictGet k (rest ++ d₂)) = _
      rw [if_neg h, ih]
      by_cases h₂ : k ∈ dictKeys rest
      · have hmem : k ∈ dictKeys ((k', v) :: rest) := by
          simp [dictKeys] at h₂ ⊢; exact Or.inr h₂
        rw [if_pos h₂, if_pos hmem]
        show _ = if k' = k then v else dictGet k rest
        rw [if_neg h]
      · have hmem : k ∉ dictKeys ((k', v) :: rest) := by
          simp [dictKeys] at h₂ ⊢
          exact ⟨fun e => h e.symm, h₂⟩
        rw [if_neg h₂, if_neg hmem]

theorem dictAdd_some {k : Int × Int} {v : Int} :
    ∀ {d : TxDict}, k ∈ dictKeys d → ∃ d', dictAdd k v d = some d' ∧
      dictKeys d' = dictKeys d ∧ dictVol d' = dictVol d + v ∧
      (∀ k', dictGet k' d' = dictGet k' d + if k = k' then v else 0) ∧
      (DictPos d → 0 ≤ v → DictPos d')
  | [], h => by simp [dictKeys] at h
  | (k', v') :: rest, h => by
    by_cases hk : k' = k
    · subst hk
      refine ⟨(k', v' + v) :: rest, by simp [dictAdd], by simp [dictKeys], ?_, ?_, ?_⟩
      · simp [dictVol]; ring
      · intro k₂
        by_cases h₂ : k' = k₂
        · subst h₂; simp [dictGet]
        · simp [dictGet, if_neg h₂, if_neg (fun e => h₂ e)]
      · intro hp hv kv hkv
        rcases List.mem_cons.mp hkv with rfl | hkv
        · have := hp (k', v') (List.mem_cons_self _ _)
          simp only at this ⊢
          omega
        · exact hp kv (List.mem_cons_of_mem _ hkv)
    · simp only [dictKeys, List.map_cons, List.mem_cons] at h
      rcases h with rfl | h
      · exact absurd rfl hk
      · obtain ⟨d', hd, hkeys, hvol, hget, hpos⟩ := @dictAdd_some _ v _ h
        have hkeys' : dictKeys ((k', v') :: d') = dictKeys ((k', v') :: rest) := by
          simp only [dictKeys, List.map_cons]
          rw [show List.map (fun kv => kv.1) d' = dictKeys d' from rfl,
            show List.map (fun kv => kv.1) rest = dictKeys rest from rfl, hkeys]
        refine ⟨(k', v') :: d', by simp [dictAdd, hk, hd], hkeys', ?_, ?_, ?_⟩
        · simp only [dictVol, List.map_cons, List.sum_cons]
          rw [show (List.map (fun kv => kv.2) d').sum = dictVol d' from rfl,
            show (List.map (fun kv => kv.2) rest).sum = dictVol rest from rfl, hvol]
          ring
        · intro k₂
          by_cases h₂ : k' = k₂
          · subst h₂
            have : ¬ k = k' := fun e => hk e.symm
            simp [dictGet, this]
          · simp [dictGet, if_neg h₂, hget k₂]
        · intro hp hv kv hkv
          rcases List.mem_cons.mp hkv with rfl | hkv
          · exact hp (k', v') (List.mem_cons_self _ _)
          · exact hpos (fun x hx => hp x (List.mem_cons_of_mem _ hx)) hv kv hkv

/-! ### `uniqueList` via structural first occurrences -/

/-- Structural companion of `uniqueList`: the elements not yet seen, in
order of first occurrence. -/
def firstOccs (seen : List Int) : List Int → List Int
  | [] => []
  | x :: xs =>
    if x ∈ seen then firstOccs seen xs else x :: firstOccs (seen ++ [x]) xs

theorem uniqueList_foldl :
    ∀ (l acc : List Int),
      l.foldl (fun res i => if i ∈ res then res else res ++ [i]) acc =
        acc ++ firstOccs acc l
  | [], acc => by simp [firstOccs]
  | x :: xs, acc => by
    by_cases h : x ∈ acc
    · simp only [List.foldl_cons, if_pos h, firstOccs, uniqueList_foldl xs acc]
    · simp only [List.foldl_cons, if_neg h, firstOccs,
        uniqueList_foldl xs (acc ++ [x]), List.append_assoc, List.singleton_append]

theorem uniqueList_eq_firstOccs (l : List Int) : uniqueList l = firstOccs [] l := by
  simpa using uniqueList_foldl l []

theorem mem_firstOccs {a : Int} :
    ∀ {seen l : List Int}, a ∈ firstOccs seen l ↔ a ∈ l ∧ a ∉ seen := by
  intro seen l
  induction l generalizing seen with
  | nil => simp [firstOccs]
  | cons x xs ih =>
    by_cases h : x ∈ seen
    · simp only [firstOccs, if_pos h, ih, List.mem_cons]
      constructor
      · rintro ⟨hm, hs⟩; exact ⟨Or.inr hm, hs⟩
      · rintro ⟨rfl | hm, hs⟩
        · exact absurd h hs
        · exact ⟨hm, hs⟩
    · simp only [firstOccs, if_neg h, List.mem_cons, ih, List.mem_append,
        List.mem_singleton]
      constructor
      · rintro (rfl | ⟨hm, hs⟩)
        · exact ⟨Or.inl rfl, h⟩
        · push_neg at hs
          exact ⟨Or.inr hm, hs.1⟩
      · rintro ⟨rfl | hm, hs⟩
        · exact Or.inl rfl
        · by_cases hax : a = x
          · exact Or.inl hax
          · exact Or.inr ⟨hm, by simp [hs, hax]⟩

theorem nodup_firstOccs : ∀ (seen l : List Int), (firstOccs seen l).Nodup
  | _, [] => List.nodup_nil
  | seen, x :: xs => by
    by_cases h : x ∈ seen
    · simpa [firstOccs, if_pos h] using nodup_firstOccs seen xs
    · simp only [firstOccs, if_neg h, List.nodup_cons]
      refine ⟨fun hm => ?_, nodup_firstOccs (seen ++ [x]) xs⟩
      have := mem_firstOccs.mp hm
      simp at this

theorem mem_uniqueList {a : Int} {l : List Int} : a ∈ uniqueList l ↔ a ∈ l := by
  rw [uniqueList_eq_firstOccs, mem_firstOccs]
  simp

theorem nodup_uniqueList (l : List Int) : (uniqueList l).Nodup := by
  rw [uniqueList_eq_firstOccs]; exact nodup_firstOccs [] l

/-! ### Generic `Forall₂` and summation helpers -/

theorem forall₂_trans {α : Type} {R S T : α → α → Prop}
    (h : ∀ a b c, R a b → S b c → T a c) :
    ∀ {l₁ l₂ l₃ : List α}, List.Forall₂ R l₁ l₂ → List.Forall₂ S l₂ l₃ →
      List.Forall₂ T l₁ l₃
  | [], [], [], _, _ => List.Forall₂.nil
  | _ :: _, _ :: _, _ :: _, List.Forall₂.cons hab h₁, List.Forall₂.cons hbc h₂ =>
    List.Forall₂.cons (h _ _ _ hab hbc) (forall₂_trans h h₁ h₂)

theorem forall₂_mem_right {α : Type} {R : α → α → Prop} :
    ∀ {l l' : List α}, List.Forall₂ R l l' → ∀ b ∈ l', ∃ a ∈ l, R a b
  | [], [], List.Forall₂.nil, b, hb => absurd hb (List.not_mem_nil b)
  | _ :: _, _ :: _, List.Forall₂.cons hab h, b, hb => by
    rcases List.mem_cons.mp hb with rfl | hb
    · exact ⟨_, List.mem_cons_self _ _, hab⟩
    · obtain ⟨a, ha, hr⟩ := forall₂_mem_right h b hb
      exact ⟨a, List.mem_cons_of_mem _ ha, hr⟩

theorem forall₂_map_eq {α β : Type} {R : α → α → Prop} {g : α → β}
    (hg : ∀ a b, R a b → g b = g a) :
    ∀ {l l' : List α}, List.Forall₂ R l l' → l'.map g = l.map g
  | [], [], List.Forall₂.nil => rfl
  | _ :: _, _ :: _, List.Forall₂.cons hab h => by
    simp only [List.map_cons, hg _ _ hab, forall₂_map_eq hg h]

theorem forall₂_filter {α : Type} {R : α → α → Prop} {p : α → Bool}
    (hp : ∀ a b, R a b → (p b = p a)) :
    ∀ {l l' : List α}, List.Forall₂ R l l' →
      List.Forall₂ R (l.filter p) (l'.filter p)
  | [], [], List.Forall₂.nil => List.Forall₂.nil
  | a :: _, b :: _, List.Forall₂.cons hab h => by
    by_cases hq : p a
    · simpa [List.filter_cons, hq, hp _ _ hab] using
        List.Forall₂.cons hab (forall₂_filter hp h)
    · simp only [Bool.not_eq_true] at hq
      simpa [List.filter_cons, hq, hp _ _ hab] using forall₂_filter hp h

theorem forall₂_refl_of_mem {α : Type} {R : α → α → Prop} :
    ∀ {l : List α}, (∀ a ∈ l, R a a) → List.Forall₂ R l l
  | [], _ => List.Forall₂.nil
  | a :: l, h =>
    List.Forall₂.cons (h a (List.mem_cons_self _ _))
      (forall₂_refl_of_mem (fun b hb => h b (List.mem_cons_of_mem _ hb)))

/-- Sum of an integer-valued field over a record list. -/
def recSum (f : OrderBookRecord → Int) (l : List OrderBookRecord) : Int :=
  (l.map f).sum

theorem recSum_cons (f : OrderBookRecord → Int) (r : OrderBookRecord)
    (l : List OrderBookRecord) : recSum f (r :: l) = f r + recSum f l := by
  simp [recSum]

theorem sumQty_eq_recSum (l : List OrderBookRecord) :
    sumQty l = recSum (fun r => r.quantity) l := rfl

theorem recSum_filter_eq_ite (p : OrderBookRecord → Bool)
    (f : OrderBookRecord → Int) :
    ∀ l : List OrderBookRecord,
      recSum f (l.filter p) = recSum (fun r => if p r then f r else 0) l
  | [] => rfl
  | r :: rs => by
    by_cases h : p r
    · simp [List.filter_cons, h, recSum_cons, recSum_filter_eq_ite p f rs]
    · simp only [Bool.not_eq_true] at h
      simp [List.filter_cons, h, recSum_cons, recSum_filter_eq_ite p f rs]

theorem qtyOfKey_cons (k : Int × Int) (r : OrderBookRecord)
    (l : List OrderBookRecord) :
    qtyOfKey k (r :: l) =
      (if recKeyId r = k then r.quantity else 0) + qtyOfKey k l := by
  by_cases h : recKeyId r = k <;> simp [qtyOfKey, List.filter_cons, h]

theorem qtyOfKey_eq_recSum (k : Int × Int) :
    ∀ l : List OrderBookRecord,
      qtyOfKey k l =
        recSum (fun r => if recKeyId r = k then r.quantity else 0) l
  | [] => rfl
  | r :: rs => by
    rw [qtyOfKey_cons, recSum_cons, qtyOfKey_eq_recSum k rs]

/-! ### `replaceBy` lemmas -/

theorem replaceBy_forall₂ {R : OrderBookRecord → OrderBookRecord → Prop}
    {q : OrderBookRecord → Bool} :
    ∀ {l new : List OrderBookRecord}, List.Forall₂ R (l.filter q) new →
      List.Forall₂ (fun a b => (q a = true → R a b) ∧ (¬ q a = true → b = a))
        l (replaceBy q l new)
  | [], new, _ => by simp [replaceBy]
  | a :: as_, new, h => by
    by_cases hq : q a
    · rw [List.filter_cons, if_pos hq] at h
      cases h with
      | cons hab htail =>
        rw [replaceBy, if_pos hq]
        exact List.Forall₂.cons ⟨fun _ => hab, fun hc => absurd hq hc⟩
          (replaceBy_forall₂ htail)
    · rw [List.filter_cons, if_neg (by simpa using hq)] at h
      match new, h with
      | [], h =>
        rw [replaceBy]
        exact List.Forall₂.cons ⟨fun hc => absurd hc hq, fun _ => rfl⟩
          (replaceBy_forall₂ h)
      | n :: ns, h =>
        rw [replaceBy, if_neg hq]
        exact List.Forall₂.cons ⟨fun hc => absurd hc hq, fun _ => rfl⟩
          (replaceBy_forall₂ h)

theorem replaceBy_recSum (f : OrderBookRecord → Int)
    {q : OrderBookRecord → Bool} :
    ∀ {l new : List OrderBookRecord}, (l.filter q).length = new.length →
      recSum f (replaceBy q l new) =
        recSum f l - recSum f (l.filter q) + recSum f new
  | [], [], _ => by simp [replaceBy, recSum]
  | [], n :: ns, h => by simp at h
  | a :: as_, new, h => by
    by_cases hq : q a
    · rw [List.filter_cons, if_pos hq] at h
      match new, h with
      | n :: ns, h =>
        rw [replaceBy, if_pos hq]
        have ih := @replaceBy_recSum f _ as_ ns
          (by simpa using h)
        rw [List.filter_cons, if_pos hq]
        simp only [recSum_cons, ih]
        ring
    · rw [List.filter_cons, if_neg (by simpa using hq)] at h
      have ih := @replaceBy_recSum f _ as_ new h
      match new with
      | [] =>
        rw [replaceBy, List.filter_cons, if_neg (by simpa using hq)]
        simp only [recSum_cons, ih]
        ring
      | n :: ns =>
        rw [replaceBy, if_neg hq, List.filter_cons, if_neg (by simpa using hq)]
        simp only [recSum_cons, ih]
        ring

/-! ### The visible-size fill pass -/

/-- Pointwise effect of the visible pass on a record: identity, price,
maximum peak, timestamp and tie-break are untouched; the remaining
quantity and the visible size decrease by the same fill amount. -/
def visRel (r r' : OrderBookRecord) : Prop :=
  r'.order_id = r.order_id ∧ r'.price = r.price ∧
    r'.max_peak_size = r.max_peak_size ∧ r'.timestamp = r.timestamp ∧
    r'.order_priority = r.order_priority ∧ r'.quantity ≤ r.quantity ∧
    r.quantity - r'.quantity = r.current_peak_size - r'.current_peak_size ∧
    0 ≤ r'.current_peak_size

theorem fillVisible_shape :
    ∀ (oq : Int) (rs : List OrderBookRecord) (txs : TxDict), 0 ≤ oq →
      (∀ r ∈ rs, RecOK r) →
      ∃ oq' rs' txs', fillVisiblePeakSizes oq rs txs = (oq', rs', txs') ∧
        0 ≤ oq' ∧ oq' ≤ oq ∧
        List.Forall₂ visRel rs rs' ∧
        (∀ r' ∈ rs', RecMid r') ∧
        (oq' ≠ 0 → ∀ r' ∈ rs', r'.current_peak_size = 0) ∧
        sumQty rs' = sumQty rs - (oq - oq')
  | oq, [], txs, h0, _ =>
    ⟨oq, [], txs, rfl, h0, le_refl oq, List.Forall₂.nil, by simp,
      fun _ r' h => absurd h (List.not_mem_nil r'), by simp [sumQty]⟩
  | oq, r :: rs, txs, h0, hok => by
    by_cases hz : oq = 0
    · subst hz
      refine ⟨0, r :: rs, txs, by simp [fillVisiblePeakSizes], le_refl 0,
        le_refl 0, ?_, ?_, fun h => absurd rfl h, by simp⟩
      · refine forall₂_refl_of_mem (fun a ha => ?_)
        obtain ⟨_, h₂, h₃, _, _⟩ := hok a ha
        exact ⟨rfl, rfl, rfl, rfl, rfl, le_refl _, by omega, le_of_lt h₂⟩
      · exact fun r' h => (hok r' h).toMid
    · obtain ⟨hq, hp, hpq, hpm, hm⟩ := hok r (List.mem_cons_self _ _)
      have hmin : min r.current_peak_size oq = r.current_peak_size ∨
          min r.current_peak_size oq = oq := min_choice _ _
      have hminle₁ : min r.current_peak_size oq ≤ r.current_peak_size :=
        min_le_left _ _
      have hfill : (0:Int) ≤ min r.current_peak_size oq := le_min (le_of_lt hp) h0
      have hfle : min r.current_peak_size oq ≤ oq := min_le_right _ _
      obtain ⟨oq', rs', txs', heq, h1, h2, h3, h4, h5, h6⟩ :=
        fillVisible_shape (oq - min r.current_peak_size oq) rs
          (dictSet (r.order_id, r.price) (min r.current_peak_size oq) txs)
          (by omega) (fun a ha => hok a (List.mem_cons_of_mem _ ha))
      refine ⟨oq',
        { r with
            current_peak_size := r.current_peak_size - min r.current_peak_size oq,
            quantity := r.quantity - min r.current_peak_size oq } :: rs',
        txs', ?_, h1, by omega, ?_, ?_, ?_, ?_⟩
      · rw [fillVisiblePeakSizes, if_neg hz]
        simp only [heq]
      · exact List.Forall₂.cons ⟨rfl, rfl, rfl, rfl, rfl, by dsimp only; omega,
          by dsimp only; omega, by dsimp only; omega⟩ h3
      · intro r' hr'
        rcases List.mem_cons.mp hr' with rfl | hr'
        · exact ⟨by dsimp only; omega, by dsimp only; omega,
            by dsimp only; omega, hm, by dsimp only; omega⟩
        · exact h4 r' hr'
      · intro hne r' hr'
        rcases List.mem_cons.mp hr' with rfl | hr'
        · show r.current_peak_size - min r.current_peak_size oq = 0
          omega
        · exact h5 hne r' hr'
      · simp only [sumQty, List.map_cons, List.sum_cons] at h6 ⊢
        omega
theorem fillVisible_dict :
    ∀ (oq : Int) (rs : List OrderBookRecord) (txs : TxDict), 0 ≤ oq →
      (∀ r ∈ rs, RecOK r) →
      (∀ r ∈ rs, recKeyId r ∉ dictKeys txs) →
      (rs.map recKeyId).Nodup →
      ∃ oq' rs' txs', fillVisiblePeakSizes oq rs txs = (oq', rs', txs') ∧
        (∃ m, dictKeys txs' = dictKeys txs ++ (rs.map recKeyId).take m ∧
          (oq' ≠ 0 → m = rs.length)) ∧
        dictVol txs' = dictVol txs + (oq - oq') ∧
        (∀ k, dictGet k txs' = dictGet k txs + (qtyOfKey k rs - qtyOfKey k rs')) ∧
        (DictPos txs → DictPos txs')
  | oq, [], txs, h0, _, _, _ =>
    ⟨oq, [], txs, rfl, ⟨0, by simp, fun _ => rfl⟩, by ring_nf, by
      intro k; simp [qtyOfKey], fun h => h⟩
  | oq, r :: rs, txs, h0, hok, hfresh, hnd => by
    by_cases hz : oq = 0
    · subst hz
      refine ⟨0, r :: rs, txs, by simp [fillVisiblePeakSizes],
        ⟨0, by simp, fun h => absurd rfl h⟩, by ring_nf, fun k => by omega, fun h => h⟩
    · obtain ⟨hq, hp, hpq, hpm, hm⟩ := hok r (List.mem_cons_self _ _)
      have hfill : (0:Int) < min r.current_peak_size oq :=
        lt_min hp (by omega)
      have hfle : min r.current_peak_size oq ≤ oq := min_le_right _ _
      have hkey : recKeyId r = (r.order_id, r.price) := rfl
      have hfr : recKeyId r ∉ dictKeys txs := hfresh r (List.mem_cons_self _ _)
      have hset : dictSet (r.order_id, r.price) (min r.current_peak_size oq) txs =
          txs ++ [((r.order_id, r.price), min r.current_peak_size oq)] := by
        rw [← hkey]; exact dictSet_fresh hfr
      simp only [List.map_cons, List.nodup_cons] at hnd
      have hfresh' : ∀ a ∈ rs, recKeyId a ∉
          dictKeys (dictSet (r.order_id, r.price) (min r.current_peak_size oq) txs) := by
        intro a ha
        rw [hset, dictKeys_append]
        simp only [List.mem_append]
        rintro (h | h)
        · exact hfresh a (List.mem_cons_of_mem _ ha) h
        · simp only [dictKeys, List.map_cons, List.map_nil, List.mem_singleton] at h
          refine hnd.1 ?_
          have hak : recKeyId a = recKeyId r := by rw [h, hkey]
          rw [← hak]
          exact List.mem_map_of_mem recKeyId ha
      obtain ⟨oq', rs', txs', heq, ⟨m, hkeys, hmlen⟩, hvol, hget, hpos⟩ :=
        fillVisible_dict (oq - min r.current_peak_size oq) rs
          (dictSet (r.order_id, r.price) (min r.current_peak_size oq) txs)
          (by omega) (fun a ha => hok a (List.mem_cons_of_mem _ ha)) hfresh' hnd.2
      refine ⟨oq',
        { r with
            current_peak_size := r.current_peak_size - min r.current_peak_size oq,
            quantity := r.quantity - min r.current_peak_size oq } :: rs',
        txs', ?_, ⟨m + 1, ?_, ?_⟩, ?_, ?_, ?_⟩
      · rw [fillVisiblePeakSizes, if_neg hz]
        simp only [heq]
      · rw [hkeys, hset, dictKeys_append]
        simp only [dictKeys, List.map_cons, List.map_nil, List.map_cons,
          List.take_succ_cons, List.append_assoc, List.singleton_append, hkey]
      · intro hne
        have := hmlen hne
        simp [this]
      · rw [hvol, hset, dictVol_append]
        simp only [dictVol, List.map_cons, List.map_nil, List.sum_cons,
          List.sum_nil]
        omega
      · intro k
        have hset_get : dictGet k (txs ++ [((r.order_id, r.price), min r.current_peak_size oq)]) =
            dictGet k txs + (if recKeyId r = k then min r.current_peak_size oq else 0) := by
          rw [dictGet_append]
          by_cases hmem : k ∈ dictKeys txs
          · rw [if_pos hmem, if_neg]
            · ring
            · intro hkk
              exact hfr (by rw [hkk]; exact hmem)
          · rw [if_neg hmem, dictGet_eq_zero_of_not_mem hmem]
            by_cases hkk : recKeyId r = k
            · have h₂ : ((r.order_id, r.price) : Int × Int) = k := by
                rw [← hkey]; exact hkk
              rw [if_pos hkk]
              simp [dictGet, h₂]
            · have h₂ : ¬ ((r.order_id, r.price) : Int × Int) = k := by
                rw [← hkey]; exact hkk
              rw [if_neg hkk]
              simp [dictGet, h₂]
        rw [hget k, hset, hset_get, qtyOfKey_cons, qtyOfKey_cons]
        have hkeq : recKeyId ({ r with
            current_peak_size := r.current_peak_size - min r.current_peak_size oq,
            quantity := r.quantity - min r.current_peak_size oq } : OrderBookRecord) =
            recKeyId r := rfl
        rw [hkeq]
        by_cases hkk : recKeyId r = k
        · simp only [if_pos hkk]
          omega
        · simp only [if_neg hkk]
          omega
      · intro hp₀
        refine hpos ?_
        rw [hset]
        intro kv hkv
        rcases List.mem_append.mp hkv with h | h
        · exact hp₀ kv h
        · rcases List.mem_singleton.mp h with rfl
          exact hfill

/-! ### The hidden-iceberg fill pass -/

/-- Pointwise effect of the hidden pass on a record. -/
def hidRel (r r' : OrderBookRecord) : Prop :=
  r'.order_id = r.order_id ∧ r'.price = r.price ∧
    r'.max_peak_size = r.max_peak_size ∧ r'.quantity ≤ r.quantity

theorem fillHidden_main :
    ∀ (ts oq : Int) (rs : List OrderBookRecord) (txs : TxDict), 0 ≤ oq →
      (∀ r ∈ rs, RecMid r) →
      (oq ≠ 0 → ∀ r ∈ rs, recKeyId r ∈ dictKeys txs) →
      ∃ oq' rs' txs', fillHiddenIcebergOrders ts oq rs txs = some (oq', rs', txs') ∧
        0 ≤ oq' ∧ oq' ≤ oq ∧
        List.Forall₂ hidRel rs rs' ∧
        (∀ r' ∈ rs', RecMid r') ∧
        (oq' ≠ 0 → ∀ r' ∈ rs', r'.quantity = 0) ∧
        dictKeys txs' = dictKeys txs ∧
        dictVol txs' = dictVol txs + (oq - oq') ∧
        (∀ k, dictGet k txs' = dictGet k txs + (qtyOfKey k rs - qtyOfKey k rs')) ∧
        (DictPos txs → DictPos txs') ∧
        sumQty rs' = sumQty rs - (oq - oq')
  | ts, oq, [], txs, h0, _, _ =>
    ⟨oq, [], txs, rfl, h0, le_refl oq, List.Forall₂.nil, by simp,
      fun _ r' h => absurd h (List.not_mem_nil r'), rfl, by ring_nf,
      fun k => by simp [qtyOfKey], fun h => h, by simp⟩
  | ts, oq, r :: rs, txs, h0, hmid, hkeymem => by
    by_cases hz : oq = 0
    · subst hz
      refine ⟨0, r :: rs, txs, by simp [fillHiddenIcebergOrders], le_refl 0,
        le_refl 0, ?_, hmid, fun h => absurd rfl h, rfl, by ring_nf,
        fun k => by omega, fun h => h, by simp⟩
      exact forall₂_refl_of_mem (fun a _ => ⟨rfl, rfl, rfl, le_refl _⟩)
    · have hoq : 0 < oq := lt_of_le_of_ne h0 (Ne.symm hz)
      obtain ⟨hq0, hpk0, hpkm, hmx, hdisj⟩ := hmid r (List.mem_cons_self _ _)
      have hkr : recKeyId r ∈ dictKeys txs :=
        hkeymem hz r (List.mem_cons_self _ _)
      have hkey : recKeyId r = (r.order_id, r.price) := rfl
      by_cases hgt : r.quantity > oq
      · -- the record absorbs the whole order
        have hmne : r.max_peak_size ≠ 0 := by omega
        have hmod₁ : 0 ≤ oq % r.max_peak_size := Int.emod_nonneg oq hmne
        have hmod₂ : oq % r.max_peak_size < r.max_peak_size :=
          Int.emod_lt_of_pos oq hmx
        obtain ⟨txs₁, hadd, hkeys₁, hvol₁, hget₁, hpos₁⟩ :=
          @dictAdd_some _ oq _ (hkey ▸ hkr)
        obtain ⟨oq', rs', txs', heq, h1, h2, h3, h4, h5, h6, h7, h8, h9, h10⟩ :=
          fillHidden_main ts (oq - oq) rs txs₁ (by omega)
            (fun a ha => hmid a (List.mem_cons_of_mem _ ha))
            (fun hne => absurd (by omega) hne)
        refine ⟨oq',
          { r with
              current_peak_size :=
                min (r.max_peak_size - oq % r.max_peak_size) (r.quantity - oq),
              quantity := r.quantity - oq,
              timestamp := ts } :: rs',
          txs', ?_, h1, by omega, ?_, ?_, ?_, ?_, ?_, ?_, ?_, ?_⟩
        · rw [fillHiddenIcebergOrders, if_neg hz]
          simp only [if_pos hgt, if_neg hmne, hadd, heq]
        · exact List.Forall₂.cons
            ⟨rfl, rfl, rfl, by dsimp only; omega⟩ h3
        · intro a ha
          rcases List.mem_cons.mp ha with rfl | ha
          · refine ⟨by dsimp only; omega, by dsimp only; omega,
              by dsimp only; omega, by dsimp only; omega, ?_⟩
            dsimp only
            omega
          · exact h4 a ha
        · intro hne
          exact absurd (by omega : oq' = 0) hne
        · rw [h6, hkeys₁]
        · rw [h7, hvol₁]; omega
        · intro k
          rw [h8 k, hget₁ k, qtyOfKey_cons, qtyOfKey_cons]
          have hkeq : recKeyId ({ r with
              current_peak_size :=
                min (r.max_peak_size - oq % r.max_peak_size) (r.quantity - oq),
              quantity := r.quantity - oq,
              timestamp := ts } : OrderBookRecord) = recKeyId r := rfl
          rw [hkeq, ← hkey]
          by_cases hkk : recKeyId r = k
          · simp only [if_pos hkk]
            omega
          · simp only [if_neg hkk]
            omega
        · intro hp
          exact h9 (hpos₁ hp (by omega))
        · simp only [sumQty, List.map_cons, List.sum_cons] at h10 ⊢
          omega
      · -- the record is exhausted
        have hfq : 0 ≤ r.quantity := hq0
        obtain ⟨txs₁, hadd, hkeys₁, hvol₁, hget₁, hpos₁⟩ :=
          @dictAdd_some _ r.quantity _ (hkey ▸ hkr)
        obtain ⟨oq', rs', txs', heq, h1, h2, h3, h4, h5, h6, h7, h8, h9, h10⟩ :=
          fillHidden_main ts (oq - r.quantity) rs txs₁ (by omega)
            (fun a ha => hmid a (List.mem_cons_of_mem _ ha))
            (fun hne a ha => by
              rw [hkeys₁]
              exact hkeymem hz a (List.mem_cons_of_mem _ ha))
        refine ⟨oq',
          { r with
              current_peak_size := r.current_peak_size,
              quantity := r.quantity - r.quantity,
              timestamp := ts } :: rs',
          txs', ?_, h1, by omega, ?_, ?_, ?_, ?_, ?_, ?_, ?_, ?_⟩
        · rw [fillHiddenIcebergOrders, if_neg hz]
          simp only [if_neg hgt, hadd, heq]
        · exact List.Forall₂.cons
            ⟨rfl, rfl, rfl, by dsimp only; omega⟩ h3
        · intro a ha
          rcases List.mem_cons.mp ha with rfl | ha
          · exact ⟨by dsimp only; omega, by dsimp only; omega,
              by dsimp only; omega, by dsimp only; omega,
              by dsimp only; omega⟩
          · exact h4 a ha
        · intro hne a ha
          rcases List.mem_cons.mp ha with rfl | ha
          · dsimp only; omega
          · exact h5 hne a ha
        · rw [h6, hkeys₁]
        · rw [h7, hvol₁]; omega
        · intro k
          rw [h8 k, hget₁ k, qtyOfKey_cons, qtyOfKey_cons]
          have hkeq : recKeyId ({ r with
              current_peak_size := r.current_peak_size,
              quantity := r.quantity - r.quantity,
              timestamp := ts } : OrderBookRecord) = recKeyId r := rfl
          rw [hkeq, ← hkey]
          by_cases hkk : recKeyId r = k
          · simp only [if_pos hkk]
            omega
          · simp only [if_neg hkk]
            omega
        · intro hp
          exact h9 (hpos₁ hp hfq)
        · simp only [sumQty, List.map_cons, List.sum_cons] at h10 ⊢
          omega

/-! ### The empty-record fix-up -/

/-- Pointwise effect of `__fix_empty_records` on a record: the quantity,
identity, price and maximum peak are untouched; a record whose visible
size was 0 gets it reset to `min(quantity, max_peak_size)` and is
restamped. -/
def fixRel (ts : Int) (r r' : OrderBookRecord) : Prop :=
  r'.order_id = r.order_id ∧ r'.price = r.price ∧
    r'.max_peak_size = r.max_peak_size ∧ r'.quantity = r.quantity ∧
    ((r' = r ∧ r.current_peak_size ≠ 0) ∨
      (r.current_peak_size = 0 ∧
        r'.current_peak_size = min r.quantity r.max_peak_size ∧
        r'.timestamp = ts))

theorem fixEmpty_main :
    ∀ (ts i : Int) (rs : List OrderBookRecord),
      (∀ r ∈ rs, 0 ≤ r.quantity) →
      ∃ rs', fixEmptyRecords ts i rs = some rs' ∧
        List.Forall₂ (fixRel ts) rs rs'
  | ts, i, [], _ => ⟨[], rfl, List.Forall₂.nil⟩
  | ts, i, r :: rs, hge => by
    have hr := hge r (List.mem_cons_self _ _)
    obtain ⟨rs', heq, hrel⟩ :=
      fixEmpty_main ts (i + 1) rs (fun a ha => hge a (List.mem_cons_of_mem _ ha))
    by_cases hpz : r.current_peak_size = 0
    · refine ⟨{ r with
          current_peak_size := min r.quantity r.max_peak_size,
          timestamp := ts,
          order_priority := i } :: rs', ?_, ?_⟩
      · rw [fixEmptyRecords, if_neg (by omega), if_pos hpz, heq]
        rfl
      · exact List.Forall₂.cons ⟨rfl, rfl, rfl, rfl, Or.inr ⟨hpz, rfl, rfl⟩⟩ hrel
    · refine ⟨r :: rs', ?_, ?_⟩
      · rw [fixEmptyRecords, if_neg (by omega), if_neg hpz, heq]
        rfl
      · exact List.Forall₂.cons ⟨rfl, rfl, rfl, rfl, Or.inl ⟨rfl, hpz⟩⟩ hrel

/-- A record that was mid-state sound before the fix-up is, afterwards,
non-negative, and a full `RecOK` record whenever it is not exhausted. -/
theorem fixRel_sound {ts : Int} {r r' : OrderBookRecord}
    (hm : RecMid r) (hf : fixRel ts r r') :
    0 ≤ r'.quantity ∧ (r'.quantity ≠ 0 → RecOK r') := by
  obtain ⟨hq0, hpk0, hpkm, hmx, hdisj⟩ := hm
  obtain ⟨hid, hpr, hmax, hqty, hcase⟩ := hf
  rcases hcase with ⟨rfl, hne⟩ | ⟨hz, hpeak, _⟩
  · exact ⟨hq0, fun hqz => ⟨by omega, by omega, by omega, hpkm, hmx⟩⟩
  · refine ⟨by omega, fun hqz => ?_⟩
    refine ⟨by omega, ?_, ?_, ?_, by omega⟩ <;> rw [hpeak] <;> omega

/-! ### Walk-level relations and helpers -/

/-- Cumulative effect of a matching call on a candidate record:
identity, price and maximum peak are preserved, the remaining quantity
does not increase and stays non-negative, and a record that is not
exhausted satisfies the full resting invariant. -/
def updRel (r r' : OrderBookRecord) : Prop :=
  r'.order_id = r.order_id ∧ r'.price = r.price ∧
    r'.max_peak_size = r.max_peak_size ∧ r'.quantity ≤ r.quantity ∧
    0 ≤ r'.quantity ∧ (r'.quantity ≠ 0 → RecOK r')

theorem updRel_trans {a b c : OrderBookRecord}
    (h₁ : updRel a b) (h₂ : updRel b c) : updRel a c := by
  obtain ⟨i₁, p₁, m₁, q₁, n₁, k₁⟩ := h₁
  obtain ⟨i₂, p₂, m₂, q₂, n₂, k₂⟩ := h₂
  exact ⟨i₂.trans i₁, p₂.trans p₁, m₂.trans m₁, by omega, n₂, k₂⟩

theorem updRel_key {a b : OrderBookRecord} (h : updRel a b) :
    recKeyId b = recKeyId a := by
  show (b.order_id, b.price) = (a.order_id, a.price)
  rw [h.1, h.2.1]

/-- The sequence of dictionary keys the level walk can touch: the keys
of the records of each price level, level by level. -/
def walkKeys (ps : List Int) (cands : List OrderBookRecord) :
    List (Int × Int) :=
  (ps.map (fun p => (cands.filter (fun x => x.price = p)).map recKeyId)).flatten

theorem forall₂_and_left {α : Type} {R : α → α → Prop} {P : α → Prop} :
    ∀ {xs ys : List α}, List.Forall₂ R xs ys → (∀ x ∈ xs, P x) →
      List.Forall₂ (fun x y => R x y ∧ P x) xs ys
  | [], [], List.Forall₂.nil, _ => List.Forall₂.nil
  | _ :: _, _ :: _, List.Forall₂.cons hab h, hp =>
    List.Forall₂.cons ⟨hab, hp _ (List.mem_cons_self _ _)⟩
      (forall₂_and_left h (fun x hx => hp x (List.mem_cons_of_mem _ hx)))

theorem forall₂_and_right_mem {α : Type} {R : α → α → Prop} :
    ∀ {l l' : List α}, List.Forall₂ R l l' →
      List.Forall₂ (fun a b => R a b ∧ b ∈ l') l l'
  | [], [], List.Forall₂.nil => List.Forall₂.nil
  | _ :: _, b :: l', List.Forall₂.cons hab h =>
    List.Forall₂.cons ⟨hab, List.mem_cons_self _ _⟩
      ((forall₂_and_right_mem h).imp
        (fun _ _ hx => ⟨hx.1, List.mem_cons_of_mem _ hx.2⟩))

theorem take_append_exists {α : Type} (A B : List α) (m : Nat) :
    ∃ n, (A ++ B).take n = A.take m := by
  refine ⟨min m A.length, ?_⟩
  rw [List.take_append_of_le_length (min_le_right m A.length)]
  by_cases h : m ≤ A.length
  · rw [min_eq_left h]
  · push_neg at h
    rw [min_eq_right (le_of_lt h), List.take_length,
      List.take_of_length_le (le_of_lt h)]

/-! ### The price-level walk -/

theorem processLevels_main :
    ∀ (ts : Int) (ps : List Int) (oq : Int) (cands : List OrderBookRecord)
      (txs : TxDict),
      0 ≤ oq → ps.Nodup →
      (∀ r ∈ cands, r.price ∈ ps → RecOK r) →
      (∀ r ∈ cands, r.price ∉ ps → 0 ≤ r.quantity ∧ (r.quantity ≠ 0 → RecOK r)) →
      (cands.map recKeyId).Nodup →
      (∀ k ∈ dictKeys txs, k.2 ∉ ps) →
      DictPos txs →
      ∃ oq' cands' txs',
        processLevels ts ps oq cands txs = some (oq', cands', txs') ∧
        0 ≤ oq' ∧ oq' ≤ oq ∧
        List.Forall₂ updRel cands cands' ∧
        sumQty cands' = sumQty cands - (oq - oq') ∧
        dictVol txs' = dictVol txs + (oq - oq') ∧
        (∀ k, dictGet k txs' = dictGet k txs + (qtyOfKey k cands - qtyOfKey k cands')) ∧
        (oq' ≠ 0 → ∀ r' ∈ cands', r'.price ∈ ps → r'.quantity = 0) ∧
        DictPos txs' ∧
        (∃ n, dictKeys txs' = dictKeys txs ++ (walkKeys ps cands).take n)
  | ts, [], oq, cands, txs, h0, _, _, hdone, _, _, hdp => by
    refine ⟨oq, cands, txs, rfl, h0, le_refl oq, ?_, by simp, by ring_nf,
      fun k => by omega, fun _ r' _ h => absurd h (List.not_mem_nil _), hdp,
      ⟨0, by simp [walkKeys]⟩⟩
    exact forall₂_refl_of_mem (fun a ha => by
      obtain ⟨hq, hok⟩ := hdone a ha (List.not_mem_nil _)
      exact ⟨rfl, rfl, rfl, le_refl _, hq, hok⟩)
  | ts, p :: ps, oq, cands, txs, h0, hnd, hpend, hdone, hknd, hfresh, hdp => by
    have hall : ∀ a ∈ cands, 0 ≤ a.quantity ∧ (a.quantity ≠ 0 → RecOK a) := by
      intro a ha
      by_cases hmem : a.price ∈ p :: ps
      · obtain ⟨h₁, _, _, _, _⟩ := hpend a ha hmem
        exact ⟨le_of_lt h₁, fun _ => hpend a ha hmem⟩
      · exact hdone a ha hmem
    by_cases hz : oq = 0
    · subst hz
      refine ⟨0, cands, txs, ?_, le_refl 0, le_refl 0, ?_, by simp, by ring_nf,
        fun k => by omega, fun h => absurd rfl h, hdp, ⟨0, by simp⟩⟩
      · rw [processLevels, if_pos rfl]
      · exact forall₂_refl_of_mem (fun a ha => by
          obtain ⟨hq, hok⟩ := hall a ha
          exact ⟨rfl, rfl, rfl, le_refl _, hq, hok⟩)
    · have hndc := List.nodup_cons.mp hnd
      have hrecOK : ∀ r ∈ cands.filter (fun x => x.price = p), RecOK r := by
        intro r hr
        obtain ⟨hrc, hrp⟩ := List.mem_filter.mp hr
        have : r.price = p := by simpa using hrp
        exact hpend r hrc (this ▸ List.mem_cons_self _ _)
      have hrk_nd : ((cands.filter (fun x => x.price = p)).map recKeyId).Nodup :=
        hknd.sublist ((List.filter_sublist cands).map recKeyId)
      have hrfresh : ∀ r ∈ cands.filter (fun x => x.price = p),
          recKeyId r ∉ dictKeys txs := by
        intro r hr hmem
        obtain ⟨hrc, hrp⟩ := List.mem_filter.mp hr
        have hp' : r.price = p := by simpa using hrp
        have := hfresh (recKeyId r) hmem
        rw [show (recKeyId r).2 = r.price from rfl, hp'] at this
        exact this (List.mem_cons_self _ _)
      obtain ⟨oqv, rsv, txsv, heqv, hv1, hv2, hv3, hv4, hv5, hv6⟩ :=
        fillVisible_shape oq (cands.filter (fun x => x.price = p)) txs h0 hrecOK
      obtain ⟨oqv', rsv', txsv', heqv', ⟨m, hdk, hdm⟩, hd2, hd3, hd4⟩ :=
        fillVisible_dict oq (cands.filter (fun x => x.price = p)) txs h0
          hrecOK hrfresh hrk_nd
      rw [heqv] at heqv'
      simp only [Prod.mk.injEq] at heqv'
      obtain ⟨rfl, rfl, rfl⟩ := heqv'
      have hkeysv : List.map recKeyId rsv =
          List.map recKeyId (cands.filter (fun x => x.price = p)) :=
        forall₂_map_eq (fun a b hab => by
          show (b.order_id, b.price) = (a.order_id, a.price)
          rw [hab.1, hab.2.1]) hv3
      have hkeymem : oqv ≠ 0 → ∀ r ∈ rsv, recKeyId r ∈ dictKeys txsv := by
        intro hne r hr
        have hm := hdm hne
        subst hm
        rw [hdk, List.take_of_length_le (by simp)]
        refine List.mem_append.mpr (Or.inr ?_)
        rw [← hkeysv]
        exact List.mem_map_of_mem recKeyId hr
      obtain ⟨oq₂, rs₂, txs₂, heqh, hh1, hh2, hh3, hh4, hh5, hh6, hh7, hh8,
          hh9, hh10⟩ := fillHidden_main ts oqv rsv txsv hv1 hv4 hkeymem
      obtain ⟨rs₃, heqf, hrel₃⟩ :=
        fixEmpty_main ts 0 rs₂ (fun a ha => (hh4 a ha).1)
      -- cumulative per-record relation across the three passes
      have hvh : List.Forall₂ (fun a c => c.order_id = a.order_id ∧
          c.price = a.price ∧ c.max_peak_size = a.max_peak_size ∧
          c.quantity ≤ a.quantity) (cands.filter (fun x => x.price = p)) rs₂ :=
        forall₂_trans (fun a b c hab hbc => by
          obtain ⟨i₁, p₁, m₁, _, _, q₁, _, _⟩ := hab
          obtain ⟨i₂, p₂, m₂, q₂⟩ := hbc
          exact ⟨i₂.trans i₁, p₂.trans p₁, m₂.trans m₁, by omega⟩) hv3 hh3
      have hupd₃ : List.Forall₂ updRel (cands.filter (fun x => x.price = p)) rs₃ :=
        forall₂_trans (fun a b c hab hbc => by
          obtain ⟨hfix, hbm⟩ := hbc
          obtain ⟨i₁, p₁, m₁, q₁⟩ := hab
          obtain ⟨hs₁, hs₂⟩ := fixRel_sound hbm hfix
          obtain ⟨i₂, p₂, m₂, q₂, _⟩ := hfix
          exact ⟨i₂.trans i₁, p₂.trans p₁, m₂.trans m₁, by omega, hs₁, hs₂⟩)
          hvh (forall₂_and_left hrel₃ hh4)
      have hlen₃ : (cands.filter (fun x => x.price = p)).length = rs₃.length :=
        hupd₃.length_eq
      have hrep := replaceBy_forall₂ (forall₂_and_right_mem hupd₃)
      -- the written-back candidate list
      have hupdc : List.Forall₂ updRel cands
          (replaceBy (fun x => x.price = p) cands rs₃) := by
        refine (forall₂_and_left hrep hall).imp ?_
        rintro a b ⟨⟨hyes, hno⟩, hq, hok⟩
        by_cases hpa : a.price = p
        · exact (hyes (by simpa using hpa)).1
        · rw [hno (by simpa using hpa)]
          exact ⟨rfl, rfl, rfl, le_refl _, hq, hok⟩
      have hkeysc : List.map recKeyId (replaceBy (fun x => x.price = p) cands rs₃) =
          List.map recKeyId cands :=
        forall₂_map_eq (fun a b hab => updRel_key hab) hupdc
      have hpricec : ∀ q : Int,
          List.map recKeyId ((replaceBy (fun x => x.price = p) cands rs₃).filter
            (fun x => x.price = q)) =
          List.map recKeyId (cands.filter (fun x => x.price = q)) := by
        intro q
        refine forall₂_map_eq (fun a b hab => updRel_key hab) ?_
        exact forall₂_filter (fun a b hab => by simp [hab.2.1]) hupdc
      have hwalkeq : walkKeys ps (replaceBy (fun x => x.price = p) cands rs₃) =
          walkKeys ps cands := by
        unfold walkKeys
        congr 1
        exact List.map_congr_left (fun q _ => hpricec q)
      -- hypotheses of the recursive call
      have hpend₂ : ∀ r ∈ replaceBy (fun x => x.price = p) cands rs₃,
          r.price ∈ ps → RecOK r := by
        intro r hr hrp
        obtain ⟨a, ha, ⟨hyes, hno⟩⟩ := forall₂_mem_right hrep r hr
        by_cases hpa : a.price = p
        · obtain ⟨hu, _⟩ := hyes (by simpa using hpa)
          have : r.price = p := hu.2.1.trans hpa
          exact absurd (this ▸ hrp) hndc.1
        · rw [hno (by simpa using hpa)] at hrp ⊢
          exact hpend a ha (List.mem_cons_of_mem _ hrp)
      have hdone₂ : ∀ r ∈ replaceBy (fun x => x.price = p) cands rs₃,
          r.price ∉ ps → 0 ≤ r.quantity ∧ (r.quantity ≠ 0 → RecOK r) := by
        intro r hr hrp
        obtain ⟨a, ha, ⟨hyes, hno⟩⟩ := forall₂_mem_right hrep r hr
        by_cases hpa : a.price = p
        · obtain ⟨hu, _⟩ := hyes (by simpa using hpa)
          exact ⟨hu.2.2.2.2.1, hu.2.2.2.2.2⟩
        · rw [hno (by simpa using hpa)] at hrp ⊢
          refine hdone a ha ?_
          intro hmem
          rcases List.mem_cons.mp hmem with he | hmem
          · exact hpa he
          · exact hrp hmem
      have hknd₂ : ((replaceBy (fun x => x.price = p) cands rs₃).map recKeyId).Nodup := by
        rw [hkeysc]; exact hknd
      have hfresh₂ : ∀ k ∈ dictKeys txs₂, k.2 ∉ ps := by
        intro k hk
        rw [hh6, hdk] at hk
        rcases List.mem_append.mp hk with hk | hk
        · intro hmem
          exact hfresh k hk (List.mem_cons_of_mem _ hmem)
        · have hk' := List.take_subset m _ hk
          obtain ⟨r, hr, rfl⟩ := List.mem_map.mp hk'
          obtain ⟨_, hrp⟩ := List.mem_filter.mp hr
          have : r.price = p := by simpa using hrp
          rw [show (recKeyId r).2 = r.price from rfl, this]
          exact hndc.1
      obtain ⟨oq', cands', txs', heqr, g1, g2, g3, g4, g5, g6, g7, g8, g9⟩ :=
        processLevels_main ts ps oq₂ (replaceBy (fun x => x.price = p) cands rs₃)
          txs₂ hh1 hndc.2 hpend₂ hdone₂ hknd₂ hfresh₂ (hh9 (hd4 hdp))
      -- quantity bookkeeping
      have hsum₃ : sumQty rs₃ = sumQty rs₂ := by
        rw [sumQty_eq_recSum, sumQty_eq_recSum]
        unfold recSum
        rw [forall₂_map_eq (fun a b hab => hab.2.2.2.1) hrel₃]
      have hsumc : sumQty (replaceBy (fun x => x.price = p) cands rs₃) =
          sumQty cands - sumQty (cands.filter (fun x => x.price = p)) + sumQty rs₃ := by
        simp only [sumQty_eq_recSum]
        exact replaceBy_recSum _ hlen₃
      have hqk₃ : ∀ k, qtyOfKey k rs₃ = qtyOfKey k rs₂ := by
        intro k
        rw [qtyOfKey_eq_recSum, qtyOfKey_eq_recSum]
        unfold recSum
        rw [forall₂_map_eq (fun a b hab => by
          have hkk : recKeyId b = recKeyId a := by
            show (b.order_id, b.price) = (a.order_id, a.price)
            rw [hab.1, hab.2.1]
          rw [hkk, hab.2.2.2.1]) hrel₃]
      have hqkc : ∀ k, qtyOfKey k (replaceBy (fun x => x.price = p) cands rs₃) =
          qtyOfKey k cands - qtyOfKey k (cands.filter (fun x => x.price = p)) +
            qtyOfKey k rs₃ := by
        intro k
        simp only [qtyOfKey_eq_recSum]
        exact replaceBy_recSum _ hlen₃
      refine ⟨oq', cands', txs', ?_, g1, by omega, ?_, ?_, ?_, ?_, ?_, g8, ?_⟩
      · rw [processLevels, if_neg hz]
        simp only [heqv, heqh, heqf, heqr]
      · exact @forall₂_trans OrderBookRecord updRel updRel updRel
          (fun _ _ _ hab hbc => updRel_trans hab hbc) _ _ _ hupdc g3
      · rw [g4, hsumc, hsum₃, hh10, hv6]
        omega
      · rw [g5, hh7, hd2]
        omega
      · intro k
        have := g6 k
        rw [this, hh8 k, hd3 k, hqkc k, hqk₃ k]
        omega
      · intro hne r' hr' hpmem
        have hoq₂ : oq₂ ≠ 0 := by omega
        rcases List.mem_cons.mp hpmem with hpe | hpmem
        · obtain ⟨b, hb, hub⟩ := forall₂_mem_right g3 r' hr'
          obtain ⟨a, ha, ⟨hyes, hno⟩⟩ := forall₂_mem_right hrep b hb
          have hbz : b.quantity = 0 := by
            by_cases hpa : a.price = p
            · obtain ⟨hu, hbm⟩ := hyes (by simpa using hpa)
              obtain ⟨m₂, hm₂, hfx⟩ := forall₂_mem_right hrel₃ b hbm
              rw [hfx.2.2.2.1]
              exact hh5 hoq₂ m₂ hm₂
            · exfalso
              have hba := hno (by simpa using hpa)
              have hbp : b.price = p := by rw [← hub.2.1]; exact hpe
              exact hpa (hba ▸ hbp)
          obtain ⟨_, _, _, hq, hq0, _⟩ := hub
          omega
        · exact g7 hne r' hr' hpmem
      · by_cases hoq₂ : oq₂ = 0
        · subst hoq₂
          have heq₀ : processLevels ts ps 0
              (replaceBy (fun x => x.price = p) cands rs₃) txs₂ =
              some (0, replaceBy (fun x => x.price = p) cands rs₃, txs₂) := by
            cases ps with
            | nil => rfl
            | cons q qs => rw [processLevels, if_pos rfl]
          rw [heq₀] at heqr
          simp only [Option.some.injEq, Prod.mk.injEq] at heqr
          obtain ⟨rfl, rfl, rfl⟩ := heqr
          rw [hh6, hdk]
          have hwk : walkKeys (p :: ps) cands =
              (cands.filter (fun x => x.price = p)).map recKeyId ++
                walkKeys ps cands := by
            unfold walkKeys
            simp
          rw [hwk]
          obtain ⟨n, hn⟩ := take_append_exists
            ((cands.filter (fun x => x.price = p)).map recKeyId)
            (walkKeys ps cands) m
          exact ⟨n, by rw [hn]⟩
        · have hoqv : oqv ≠ 0 := by omega
          have hm := hdm hoqv
          subst hm
          obtain ⟨n, hn⟩ := g9
          refine ⟨((cands.filter (fun x => x.price = p)).map recKeyId).length + n, ?_⟩
          rw [hn, hwalkeq, hh6, hdk, List.take_of_length_le (by simp)]
          have hwk : walkKeys (p :: ps) cands =
              (cands.filter (fun x => x.price = p)).map recKeyId ++
                walkKeys ps cands := by
            unfold walkKeys
            simp
          rw [hwk, List.take_append, List.append_assoc]

/-! ### The matching call -/

theorem walkKeys_snd_mem :
    ∀ {ps : List Int} {cands : List OrderBookRecord} {k : Int × Int},
      k ∈ walkKeys ps cands → k.2 ∈ ps
  | [], cands, k, h => by simp [walkKeys] at h
  | p :: ps, cands, k, h => by
    unfold walkKeys at h
    simp only [List.map_cons, List.flatten_cons, List.mem_append] at h
    rcases h with h | h
    · obtain ⟨r, hr, rfl⟩ := List.mem_map.mp h
      obtain ⟨_, hrp⟩ := List.mem_filter.mp hr
      have : r.price = p := by simpa using hrp
      rw [show (recKeyId r).2 = r.price from rfl, this]
      exact List.mem_cons_self _ _
    · exact List.mem_cons_of_mem _ (walkKeys_snd_mem h)

theorem walkKeys_nodup :
    ∀ {ps : List Int} {cands : List OrderBookRecord}, ps.Nodup →
      (cands.map recKeyId).Nodup → (walkKeys ps cands).Nodup
  | [], cands, _, _ => by simp [walkKeys]
  | p :: ps, cands, hnd, hknd => by
    have hndc := List.nodup_cons.mp hnd
    unfold walkKeys
    simp only [List.map_cons, List.flatten_cons]
    refine List.Nodup.append ?_ (walkKeys_nodup hndc.2 hknd) ?_
    · exact hknd.sublist ((List.filter_sublist cands).map recKeyId)
    · intro k hk₁ hk₂
      have h₂ := @walkKeys_snd_mem ps _ _ hk₂
      obtain ⟨r, hr, rfl⟩ := List.mem_map.mp hk₁
      obtain ⟨_, hrp⟩ := List.mem_filter.mp hr
      have : r.price = p := by simpa using hrp
      rw [show (recKeyId r).2 = r.price from rfl, this] at h₂
      exact hndc.1 h₂

/-- The opposite side selected by `__try_to_fill_an_order`. -/
def againstOf (o : Order) (book : OrderBook) : List OrderBookRecord :=
  if o.is_buy then book.sell else book.buy

/-- Writing the rebuilt opposite side back into the book. -/
def withAgainst (o : Order) (book : OrderBook)
    (l : List OrderBookRecord) : OrderBook :=
  if o.is_buy then { book with sell := l } else { book with buy := l }

theorem tryToFill_main (ts : Int) (o : Order) (book : OrderBook)
    (hok : ∀ r ∈ againstOf o book, RecOK r)
    (hknd : ((againstOf o book).map recKeyId).Nodup)
    (hq : 0 < o.quantity) :
    ∃ oq₂ cands' txsd,
      tryToFillAnOrder ts o book =
        some (oq₂,
          withAgainst o book
            (List.insertionSort (recLE (!o.is_buy))
              ((replaceBy (isGoodPrice o) (againstOf o book) cands').filter
                (fun x => x.quantity ≠ 0))),
          buildTransactions o txsd) ∧
      0 ≤ oq₂ ∧ oq₂ ≤ o.quantity ∧
      List.Forall₂ updRel ((againstOf o book).filter (isGoodPrice o)) cands' ∧
      List.Forall₂ updRel (againstOf o book)
        (replaceBy (isGoodPrice o) (againstOf o book) cands') ∧
      sumQty (replaceBy (isGoodPrice o) (againstOf o book) cands') =
        sumQty (againstOf o book) - (o.quantity - oq₂) ∧
      dictVol txsd = o.quantity - oq₂ ∧
      (∀ k, dictGet k txsd = qtyOfKey k (againstOf o book) -
        qtyOfKey k (replaceBy (isGoodPrice o) (againstOf o book) cands')) ∧
      DictPos txsd ∧
      (dictKeys txsd).Nodup ∧
      (oq₂ ≠ 0 → ∀ r' ∈ cands', r'.quantity = 0) ∧
      (∃ n, dictKeys txsd =
        (walkKeys
          (uniqueList ((((againstOf o book).filter (isGoodPrice o)).map
            (fun x => x.price))))
          ((againstOf o book).filter (isGoodPrice o))).take n) := by
  have hcok : ∀ r ∈ (againstOf o book).filter (isGoodPrice o), RecOK r :=
    fun r hr => hok r (List.mem_filter.mp hr).1
  have hcknd : (((againstOf o book).filter (isGoodPrice o)).map recKeyId).Nodup :=
    hknd.sublist ((List.filter_sublist _).map recKeyId)
  obtain ⟨oq₂, cands', txsd, heqw, g1, g2, g3, g4, g5, g6, g7, g8, g9⟩ :=
    processLevels_main ts
      (uniqueList ((((againstOf o book).filter (isGoodPrice o)).map
        (fun x => x.price))))
      o.quantity ((againstOf o book).filter (isGoodPrice o)) []
      (le_of_lt hq) (nodup_uniqueList _)
      (fun r hr _ => hcok r hr)
      (fun r hr hnp => absurd
        (mem_uniqueList.mpr (List.mem_map_of_mem (fun x => x.price) hr)) hnp)
      hcknd
      (fun k hk => absurd hk (by simp [dictKeys]))
      (fun kv hkv => absurd hkv (List.not_mem_nil kv))
  have hall : ∀ a ∈ againstOf o book, 0 ≤ a.quantity ∧
      (a.quantity ≠ 0 → RecOK a) := by
    intro a ha
    obtain ⟨h₁, _⟩ := hok a ha
    exact ⟨le_of_lt h₁, fun _ => hok a ha⟩
  have hrep := replaceBy_forall₂ (forall₂_and_right_mem g3)
  have hupda : List.Forall₂ updRel (againstOf o book)
      (replaceBy (isGoodPrice o) (againstOf o book) cands') := by
    refine (forall₂_and_left hrep hall).imp ?_
    rintro a b ⟨⟨hyes, hno⟩, hq', hok'⟩
    by_cases hpa : isGoodPrice o a = true
    · exact (hyes hpa).1
    · rw [hno hpa]
      exact ⟨rfl, rfl, rfl, le_refl _, hq', hok'⟩
  have hlen : ((againstOf o book).filter (isGoodPrice o)).length = cands'.length :=
    g3.length_eq
  refine ⟨oq₂, cands', txsd, ?_, g1, g2, g3, hupda, ?_, ?_, ?_, g8, ?_, ?_, ?_⟩
  · simp only [tryToFillAnOrder]
    rw [show (if o.is_buy then book.sell else book.buy) = againstOf o book from rfl,
      heqw]
    rfl
  · have hrs := replaceBy_recSum (fun r => r.quantity) hlen
    simp only [sumQty_eq_recSum] at g4 ⊢
    rw [hrs]
    omega
  · rw [g5]
    simp [dictVol]
  · intro k
    have hg := g6 k
    rw [show dictGet k ([] : TxDict) = 0 from rfl] at hg
    have hrsum := replaceBy_recSum
      (fun r => if recKeyId r = k then r.quantity else 0) hlen
    simp only [qtyOfKey_eq_recSum] at hg ⊢
    rw [hrsum]
    omega
  · obtain ⟨n, hn⟩ := g9
    rw [show dictKeys ([] : TxDict) = [] from rfl] at hn
    rw [List.nil_append] at hn
    rw [hn]
    exact (walkKeys_nodup (nodup_uniqueList _) hcknd).sublist
      (List.take_sublist n _)
  · intro hne r' hr'
    obtain ⟨r, hr, hur⟩ := forall₂_mem_right g3 r' hr'
    refine g7 hne r' hr' ?_
    rw [hur.2.1]
    exact mem_uniqueList.mpr (List.mem_map_of_mem (fun x => x.price) hr)
  · obtain ⟨n, hn⟩ := g9
    rw [show dictKeys ([] : TxDict) = [] from rfl, List.nil_append] at hn
    exact ⟨n, hn⟩

/-! ### Book-level invariant and bookkeeping -/

/-- Sum of quantities distributes over append. -/
theorem sumQty_append (l₁ l₂ : List OrderBookRecord) :
    sumQty (l₁ ++ l₂) = sumQty l₁ + sumQty l₂ := by
  simp [sumQty]

theorem sumQty_perm {l l' : List OrderBookRecord} (h : l.Perm l') :
    sumQty l = sumQty l' := by
  unfold sumQty
  exact (h.map (fun r => r.quantity)).sum_eq

theorem sumQty_filter_ne_zero :
    ∀ l : List OrderBookRecord,
      sumQty (l.filter (fun x => x.quantity ≠ 0)) = sumQty l
  | [] => rfl
  | r :: rs => by
    by_cases h : r.quantity = 0
    · rw [List.filter_cons, if_neg (by simpa using h)]
      rw [sumQty_filter_ne_zero rs]
      simp [sumQty, h]
    · rw [List.filter_cons, if_pos (by simpa using h)]
      simp only [sumQty, List.map_cons, List.sum_cons] at *
      rw [show ((rs.filter (fun x => x.quantity ≠ 0)).map
        (fun r => r.quantity)).sum = sumQty (rs.filter (fun x => x.quantity ≠ 0))
        from rfl, sumQty_filter_ne_zero rs]
      rfl

theorem qtyOfKey_perm {l l' : List OrderBookRecord} (k : Int × Int)
    (h : l.Perm l') : qtyOfKey k l = qtyOfKey k l' := by
  rw [qtyOfKey_eq_recSum, qtyOfKey_eq_recSum]
  exact (h.map _).sum_eq

theorem qtyOfKey_filter_ne_zero (k : Int × Int) :
    ∀ l : List OrderBookRecord,
      qtyOfKey k (l.filter (fun x => x.quantity ≠ 0)) = qtyOfKey k l
  | [] => rfl
  | r :: rs => by
    by_cases h : r.quantity = 0
    · rw [List.filter_cons, if_neg (by simpa using h), qtyOfKey_cons,
        qtyOfKey_filter_ne_zero k rs]
      by_cases hk : recKeyId r = k <;> simp [hk, h]
    · rw [List.filter_cons, if_pos (by simpa using h), qtyOfKey_cons,
        qtyOfKey_cons, qtyOfKey_filter_ne_zero k rs]

/-- The volume total of the built transactions is the dictionary total. -/
theorem volSum_buildTransactions (o : Order) (d : TxDict) :
    volSum (buildTransactions o d) = dictVol d := by
  by_cases h : o.is_buy <;>
    simp [volSum, buildTransactions, dictVol, h, Function.comp_def]

/-- A list of records with pairwise-distinct ids has pairwise-distinct
dictionary keys. -/
theorem nodup_keys_of_nodup_ids {l : List OrderBookRecord}
    (h : (l.map (fun r => r.order_id)).Nodup) : (l.map recKeyId).Nodup := by
  have heq : l.map (fun r => r.order_id) = (l.map recKeyId).map Prod.fst := by
    rw [List.map_map]; rfl
  rw [heq] at h
  exact h.of_map Prod.fst

/-- The reachable-state invariant of the book: every resting record is a
sound iceberg record, order ids are unique across both sides, and no
resting bid price reaches any resting ask price. -/
def Inv (book : OrderBook) : Prop :=
  (∀ r ∈ book.buy ++ book.sell, RecOK r) ∧
    ((book.buy ++ book.sell).map (fun r => r.order_id)).Nodup ∧
    (∀ b ∈ book.buy, ∀ s ∈ book.sell, b.price < s.price)

theorem isDuplicate_timestamp (book : OrderBook) (t : Int) (o : Order) :
    isDuplicate { book with timestamp := t } o = isDuplicate book o := rfl

theorem againstOf_buy {o : Order} (h : o.is_buy = true) (book : OrderBook) :
    againstOf o book = book.sell := by simp [againstOf, h]

theorem againstOf_sell {o : Order} (h : ¬ o.is_buy = true) (book : OrderBook) :
    againstOf o book = book.buy := by simp [againstOf, h]

theorem Inv.empty : Inv OrderBook.empty :=
  ⟨fun r h => absurd h (List.not_mem_nil r), by simp [OrderBook.empty],
    fun b hb => absurd hb (List.not_mem_nil b)⟩

/-- Master lemma: on a book satisfying the invariant, `add` with a valid
order never raises, preserves the invariant, advances the clock by one,
and conserves quantity: twice the emitted volume plus the resting
quantity after the call equals the resting quantity before plus the
accepted quantity. -/
theorem add_main (book : OrderBook) (o : Order) (hinv : Inv book)
    (hq : 0 < o.quantity) (hpk : 0 < o.peak_size) :
    ∃ txs b', book.add o = some (txs, b') ∧ Inv b' ∧
      b'.timestamp = book.timestamp + 1 ∧
      2 * volSum txs + sumQty (b'.buy ++ b'.sell) =
        sumQty (book.buy ++ book.sell) +
          (if isDuplicate book o then 0 else o.quantity) ∧
      (∃ txsd, txs = buildTransactions o txsd ∧
        (dictKeys txsd).Nodup ∧ DictPos txsd ∧
        (∀ k, dictGet k txsd =
          qtyOfKey k (againstOf o book) - qtyOfKey k (againstOf o b')) ∧
        (∃ n, dictKeys txsd =
          (walkKeys
            (uniqueList (((againstOf o book).filter (isGoodPrice o)).map
              (fun x => x.price)))
            ((againstOf o book).filter (isGoodPrice o))).take n)) := by
  obtain ⟨hrok, hids, hcross⟩ := hinv
  have hids' : ((book.buy.map (fun r => r.order_id)) ++
      (book.sell.map (fun r => r.order_id))).Nodup := by
    rw [← List.map_append]; exact hids
  obtain ⟨hbids, hsids, hdisj⟩ := List.nodup_append.mp hids'
  by_cases hdup : isDuplicate book o = true
  · refine ⟨[], { book with timestamp := book.timestamp + 1 }, ?_, ?_, rfl, ?_⟩
    · rw [OrderBook.add]
      dsimp only
      rw [isDuplicate_timestamp, if_pos hdup]
    · exact ⟨hrok, hids, hcross⟩
    · refine ⟨by simp [hdup, volSum], [], rfl, by simp [dictKeys], ?_, ?_, 0, by simp [dictKeys]⟩
      · exact fun kv hkv => absurd hkv (List.not_mem_nil kv)
      · intro k
        show (0:Int) = qtyOfKey k (againstOf o book) - qtyOfKey k (againstOf o book)
        omega
  · have hdup' : ∀ r ∈ book.buy ++ book.sell, r.order_id ≠ o.order_id := by
      intro r hr he
      apply hdup
      simp only [isDuplicate, List.any_eq_true]
      exact ⟨r, hr, by simp [he]⟩
    by_cases hbuy : o.is_buy
    · -- incoming buy: matching against the sell side
      have hag : againstOf o { book with timestamp := book.timestamp + 1 } =
          book.sell := by simp [againstOf, hbuy]
      obtain ⟨oq₂, cands', txsd, heqt, t1, t2, t3, t4, t5, t6, t7, t8, t9,
          t10, t11⟩ :=
        tryToFill_main (book.timestamp + 1) o
          { book with timestamp := book.timestamp + 1 }
          (by rw [hag]; exact fun r hr => hrok r (List.mem_append_right _ hr))
          (by rw [hag]; exact nodup_keys_of_nodup_ids hsids) hq
      rw [hag] at heqt t3 t4 t5 t7 t11
      have hrep := replaceBy_forall₂ (forall₂_and_right_mem t3)
      have hmemU : ∀ r' ∈ replaceBy (isGoodPrice o) book.sell cands',
          ∃ a ∈ book.sell, updRel a r' := forall₂_mem_right t4
      have hnewperm : (List.insertionSort (recLE (!o.is_buy))
          ((replaceBy (isGoodPrice o) book.sell cands').filter
            (fun x => x.quantity ≠ 0))).Perm
          ((replaceBy (isGoodPrice o) book.sell cands').filter
            (fun x => x.quantity ≠ 0)) :=
        List.perm_insertionSort _ _
      have hnewmem : ∀ s ∈ List.insertionSort (recLE (!o.is_buy))
          ((replaceBy (isGoodPrice o) book.sell cands').filter
            (fun x => x.quantity ≠ 0)),
          s ∈ replaceBy (isGoodPrice o) book.sell cands' ∧ s.quantity ≠ 0 := by
        intro s hs
        have := hnewperm.subset hs
        obtain ⟨h₁, h₂⟩ := List.mem_filter.mp this
        exact ⟨h₁, by simpa using h₂⟩
      have hnewOK : ∀ s ∈ List.insertionSort (recLE (!o.is_buy))
          ((replaceBy (isGoodPrice o) book.sell cands').filter
            (fun x => x.quantity ≠ 0)), RecOK s := by
        intro s hs
        obtain ⟨h₁, h₂⟩ := hnewmem s hs
        obtain ⟨a, ha, hu⟩ := hmemU s h₁
        exact hu.2.2.2.2.2 h₂
      have hnewids : ((List.insertionSort (recLE (!o.is_buy))
          ((replaceBy (isGoodPrice o) book.sell cands').filter
            (fun x => x.quantity ≠ 0))).map (fun r => r.order_id)).Perm
          (((replaceBy (isGoodPrice o) book.sell cands').filter
            (fun x => x.quantity ≠ 0)).map (fun r => r.order_id)) :=
        hnewperm.map _
      have hUids : (replaceBy (isGoodPrice o) book.sell cands').map
          (fun r => r.order_id) = book.sell.map (fun r => r.order_id) :=
        forall₂_map_eq (fun a b h => h.1) t4
      have hfltids : (((replaceBy (isGoodPrice o) book.sell cands').filter
          (fun x => x.quantity ≠ 0)).map (fun r => r.order_id)).Sublist
          (book.sell.map (fun r => r.order_id)) := by
        rw [← hUids]
        exact (List.filter_sublist _).map _
      have hnewids_nodup : ((List.insertionSort (recLE (!o.is_buy))
          ((replaceBy (isGoodPrice o) book.sell cands').filter
            (fun x => x.quantity ≠ 0))).map (fun r => r.order_id)).Nodup :=
        hnewids.nodup_iff.mpr (hsids.sublist hfltids)
      have hnewids_sub : ∀ x ∈ (List.insertionSort (recLE (!o.is_buy))
          ((replaceBy (isGoodPrice o) book.sell cands').filter
            (fun x => x.quantity ≠ 0))).map (fun r => r.order_id),
          x ∈ book.sell.map (fun r => r.order_id) := by
        intro x hx
        exact hfltids.subset (hnewids.subset hx)
      have hsumnew : sumQty (List.insertionSort (recLE (!o.is_buy))
          ((replaceBy (isGoodPrice o) book.sell cands').filter
            (fun x => x.quantity ≠ 0))) =
          sumQty book.sell - (o.quantity - oq₂) := by
        rw [sumQty_perm hnewperm, sumQty_filter_ne_zero, t5]
      have hvol : volSum (buildTransactions o txsd) = o.quantity - oq₂ := by
        rw [volSum_buildTransactions, t6]
      by_cases hrest : oq₂ = 0
      · subst hrest
        refine ⟨buildTransactions o txsd,
          { buy := book.buy,
            sell := List.insertionSort (recLE (!o.is_buy))
              ((replaceBy (isGoodPrice o) book.sell cands').filter
                (fun x => x.quantity ≠ 0)),
            timestamp := book.timestamp + 1 }, ?_, ⟨?_, ?_, ?_⟩, ?_, ?_⟩
        · rw [OrderBook.add]
          dsimp only
          rw [isDuplicate_timestamp, if_neg hdup, heqt]
          dsimp only
          rw [if_neg (by simp : ¬((0:Int) ≠ 0))]
          simp [withAgainst, hbuy]
        · intro r hr
          rcases List.mem_append.mp hr with hr | hr
          · exact hrok r (List.mem_append_left _ hr)
          · exact hnewOK r hr
        · rw [List.map_append]
          refine List.nodup_append.mpr ⟨hbids, hnewids_nodup, ?_⟩
          intro x hx₁ hx₂
          exact hdisj hx₁ (hnewids_sub x hx₂)
        · intro b hb s hs
          obtain ⟨h₁, _⟩ := hnewmem s hs
          obtain ⟨a, ha, hu⟩ := hmemU s h₁
          rw [hu.2.1]
          exact hcross b hb a ha
        · rfl
        · refine ⟨?_, txsd, rfl, t9, t8, ?_, ?_⟩
          · dsimp only
            rw [if_neg hdup, hvol, sumQty_append, sumQty_append, hsumnew]
            omega
          · intro k
            simp only [againstOf_buy hbuy]
            rw [qtyOfKey_perm k hnewperm, qtyOfKey_filter_ne_zero]
            exact t7 k
          · simp only [againstOf_buy hbuy]
            exact t11
      · refine ⟨buildTransactions o txsd,
          { buy := List.orderedInsert (recLE true)
              (OrderBookRecord.fromOrder { o with quantity := oq₂ }
                (book.timestamp + 1)) book.buy,
            sell := List.insertionSort (recLE (!o.is_buy))
              ((replaceBy (isGoodPrice o) book.sell cands').filter
                (fun x => x.quantity ≠ 0)),
            timestamp := book.timestamp + 1 }, ?_, ⟨?_, ?_, ?_⟩, ?_, ?_⟩
        · rw [OrderBook.add]
          dsimp only
          rw [isDuplicate_timestamp, if_neg hdup, heqt]
          dsimp only
          rw [if_pos hrest, if_pos hbuy]
          simp [withAgainst, hbuy]
        · intro r hr
          rcases List.mem_append.mp hr with hr | hr
          · rcases (List.mem_orderedInsert _).mp hr with rfl | hr
            · refine ⟨by dsimp [OrderBookRecord.fromOrder]; omega, ?_, ?_, ?_, ?_⟩ <;>
                dsimp [OrderBookRecord.fromOrder] <;> omega
            · exact hrok r (List.mem_append_left _ hr)
          · exact hnewOK r hr
        · rw [List.map_append]
          have hIperm : ((List.orderedInsert (recLE true)
              (OrderBookRecord.fromOrder { o with quantity := oq₂ }
                (book.timestamp + 1)) book.buy).map (fun r => r.order_id)).Perm
              (o.order_id :: book.buy.map (fun r => r.order_id)) :=
            (List.perm_orderedInsert _ _ _).map _
          refine ((hIperm.append_right _).nodup_iff).mpr ?_
          rw [List.cons_append]
          refine List.nodup_cons.mpr ⟨?_, ?_⟩
          · intro hx
            rcases List.mem_append.mp hx with hx | hx
            · obtain ⟨r, hr, he⟩ := List.mem_map.mp hx
              exact hdup' r (List.mem_append_left _ hr) he
            · obtain ⟨r, hr, he⟩ := List.mem_map.mp
                (hnewids_sub o.order_id hx)
              exact hdup' r (List.mem_append_right _ hr) he
          · refine List.nodup_append.mpr ⟨hbids, hnewids_nodup, ?_⟩
            intro x hx₁ hx₂
            exact hdisj hx₁ (hnewids_sub x hx₂)
        · intro b hb s hs
          obtain ⟨h₁, h₂⟩ := hnewmem s hs
          obtain ⟨a, ha, ⟨hyes, hno⟩⟩ := forall₂_mem_right hrep s h₁
          have hsa : ¬ isGoodPrice o a = true := by
            intro hga
            obtain ⟨hu, hsc⟩ := hyes hga
            exact h₂ (t10 hrest s hsc)
          have hse := hno hsa
          subst hse
          have hap : o.price < s.price := by
            simp only [isGoodPrice, if_pos hbuy, decide_eq_true_eq] at hsa
            omega
          rcases (List.mem_orderedInsert _).mp hb with rfl | hb
          · dsimp [OrderBookRecord.fromOrder]
            exact hap
          · exact hcross b hb s ha
        · rfl
        · refine ⟨?_, txsd, rfl, t9, t8, ?_, ?_⟩
          · dsimp only
            rw [if_neg hdup, hvol, sumQty_append, sumQty_append, hsumnew]
            have hIperm : (List.orderedInsert (recLE true)
                (OrderBookRecord.fromOrder { o with quantity := oq₂ }
                  (book.timestamp + 1)) book.buy).Perm
                (OrderBookRecord.fromOrder { o with quantity := oq₂ }
                  (book.timestamp + 1) :: book.buy) :=
              List.perm_orderedInsert _ _ _
            rw [sumQty_perm hIperm]
            simp only [sumQty, List.map_cons, List.sum_cons]
            dsimp [OrderBookRecord.fromOrder]
            omega
          · intro k
            simp only [againstOf_buy hbuy]
            rw [qtyOfKey_perm k hnewperm, qtyOfKey_filter_ne_zero]
            exact t7 k
          · simp only [againstOf_buy hbuy]
            exact t11
    · -- incoming sell: matching against the buy side
      have hag : againstOf o { book with timestamp := book.timestamp + 1 } =
          book.buy := by simp [againstOf, hbuy]
      obtain ⟨oq₂, cands', txsd, heqt, t1, t2, t3, t4, t5, t6, t7, t8, t9,
          t10, t11⟩ :=
        tryToFill_main (book.timestamp + 1) o
          { book with timestamp := book.timestamp + 1 }
          (by rw [hag]; exact fun r hr => hrok r (List.mem_append_left _ hr))
          (by rw [hag]; exact nodup_keys_of_nodup_ids hbids) hq
      rw [hag] at heqt t3 t4 t5 t7 t11
      have hrep := replaceBy_forall₂ (forall₂_and_right_mem t3)
      have hmemU : ∀ r' ∈ replaceBy (isGoodPrice o) book.buy cands',
          ∃ a ∈ book.buy, updRel a r' := forall₂_mem_right t4
      have hnewperm : (List.insertionSort (recLE (!o.is_buy))
          ((replaceBy (isGoodPrice o) book.buy cands').filter
            (fun x => x.quantity ≠ 0))).Perm
          ((replaceBy (isGoodPrice o) book.buy cands').filter
            (fun x => x.quantity ≠ 0)) :=
        List.perm_insertionSort _ _
      have hnewmem : ∀ s ∈ List.insertionSort (recLE (!o.is_buy))
          ((replaceBy (isGoodPrice o) book.buy cands').filter
            (fun x => x.quantity ≠ 0)),
          s ∈ replaceBy (isGoodPrice o) book.buy cands' ∧ s.quantity ≠ 0 := by
        intro s hs
        have := hnewperm.subset hs
        obtain ⟨h₁, h₂⟩ := List.mem_filter.mp this
        exact ⟨h₁, by simpa using h₂⟩
      have hnewOK : ∀ s ∈ List.insertionSort (recLE (!o.is_buy))
          ((replaceBy (isGoodPrice o) book.buy cands').filter
            (fun x => x.quantity ≠ 0)), RecOK s := by
        intro s hs
        obtain ⟨h₁, h₂⟩ := hnewmem s hs
        obtain ⟨a, ha, hu⟩ := hmemU s h₁
        exact hu.2.2.2.2.2 h₂
      have hnewids : ((List.insertionSort (recLE (!o.is_buy))
          ((replaceBy (isGoodPrice o) book.buy cands').filter
            (fun x => x.quantity ≠ 0))).map (fun r => r.order_id)).Perm
          (((replaceBy (isGoodPrice o) book.buy cands').filter
            (fun x => x.quantity ≠ 0)).map (fun r => r.order_id)) :=
        hnewperm.map _
      have hUids : (replaceBy (isGoodPrice o) book.buy cands').map
          (fun r => r.order_id) = book.buy.map (fun r => r.order_id) :=
        forall₂_map_eq (fun a b h => h.1) t4
      have hfltids : (((replaceBy (isGoodPrice o) book.buy cands').filter
          (fun x => x.quantity ≠ 0)).map (fun r => r.order_id)).Sublist
          (book.buy.map (fun r => r.order_id)) := by
        rw [← hUids]
        exact (List.filter_sublist _).map _
      have hnewids_nodup : ((List.insertionSort (recLE (!o.is_buy))
          ((replaceBy (isGoodPrice o) book.buy cands').filter
            (fun x => x.quantity ≠ 0))).map (fun r => r.order_id)).Nodup :=
        hnewids.nodup_iff.mpr (hbids.sublist hfltids)
      have hnewids_sub : ∀ x ∈ (List.insertionSort (recLE (!o.is_buy))
          ((replaceBy (isGoodPrice o) book.buy cands').filter
            (fun x => x.quantity ≠ 0))).map (fun r => r.order_id),
          x ∈ book.buy.map (fun r => r.order_id) := by
        intro x hx
        exact hfltids.subset (hnewids.subset hx)
      have hsumnew : sumQty (List.insertionSort (recLE (!o.is_buy))
          ((replaceBy (isGoodPrice o) book.buy cands').filter
            (fun x => x.quantity ≠ 0))) =
          sumQty book.buy - (o.quantity - oq₂) := by
        rw [sumQty_perm hnewperm, sumQty_filter_ne_zero, t5]
      have hvol : volSum (buildTransactions o txsd) = o.quantity - oq₂ := by
        rw [volSum_buildTransactions, t6]
      by_cases hrest : oq₂ = 0
      · subst hrest
        refine ⟨buildTransactions o txsd,
          { buy := List.insertionSort (recLE (!o.is_buy))
              ((replaceBy (isGoodPrice o) book.buy cands').filter
                (fun x => x.quantity ≠ 0)),
            sell := book.sell,
            timestamp := book.timestamp + 1 }, ?_, ⟨?_, ?_, ?_⟩, ?_, ?_⟩
        · rw [OrderBook.add]
          dsimp only
          rw [isDuplicate_timestamp, if_neg hdup, heqt]
          dsimp only
          rw [if_neg (by simp : ¬((0:Int) ≠ 0))]
          simp [withAgainst, hbuy]
        · intro r hr
          rcases List.mem_append.mp hr with hr | hr
          · exact hnewOK r hr
          · exact hrok r (List.mem_append_right _ hr)
        · rw [List.map_append]
          refine List.nodup_append.mpr ⟨hnewids_nodup, hsids, ?_⟩
          intro x hx₁ hx₂
          exact hdisj (hnewids_sub x hx₁) hx₂
        · intro b hb s hs
          obtain ⟨h₁, _⟩ := hnewmem b hb
          obtain ⟨a, ha, hu⟩ := hmemU b h₁
          rw [hu.2.1]
          exact hcross a ha s hs
        · rfl
        · refine ⟨?_, txsd, rfl, t9, t8, ?_, ?_⟩
          · dsimp only
            rw [if_neg hdup, hvol, sumQty_append, sumQty_append, hsumnew]
            omega
          · intro k
            simp only [againstOf_sell hbuy]
            rw [qtyOfKey_perm k hnewperm, qtyOfKey_filter_ne_zero]
            exact t7 k
          · simp only [againstOf_sell hbuy]
            exact t11
      · refine ⟨buildTransactions o txsd,
          { buy := List.insertionSort (recLE (!o.is_buy))
              ((replaceBy (isGoodPrice o) book.buy cands').filter
                (fun x => x.quantity ≠ 0)),
            sell := List.orderedInsert (recLE false)
              (OrderBookRecord.fromOrder { o with quantity := oq₂ }
                (book.timestamp + 1)) book.sell,
            timestamp := book.timestamp + 1 }, ?_, ⟨?_, ?_, ?_⟩, ?_, ?_⟩
        · rw [OrderBook.add]
          dsimp only
          rw [isDuplicate_timestamp, if_neg hdup, heqt]
          dsimp only
          rw [if_pos hrest, if_neg hbuy]
          simp [withAgainst, hbuy]
        · intro r hr
          rcases List.mem_append.mp hr with hr | hr
          · exact hnewOK r hr
          · rcases (List.mem_orderedInsert _).mp hr with rfl | hr
            · refine ⟨by dsimp [OrderBookRecord.fromOrder]; omega, ?_, ?_, ?_, ?_⟩ <;>
                dsimp [OrderBookRecord.fromOrder] <;> omega
            · exact hrok r (List.mem_append_right _ hr)
        · rw [List.map_append]
          have hIperm : ((List.orderedInsert (recLE false)
              (OrderBookRecord.fromOrder { o with quantity := oq₂ }
                (book.timestamp + 1)) book.sell).map (fun r => r.order_id)).Perm
              (o.order_id :: book.sell.map (fun r => r.order_id)) :=
            (List.perm_orderedInsert _ _ _).map _
          refine ((hIperm.append_left _).nodup_iff).mpr ?_
          refine List.Nodup.append ?_ ?_ ?_
          · exact hnewids_nodup
          · refine List.nodup_cons.mpr ⟨?_, hsids⟩
            intro hx
            obtain ⟨r, hr, he⟩ := List.mem_map.mp hx
            exact hdup' r (List.mem_append_right _ hr) he
          · intro x hx₁ hx₂
            rcases List.mem_cons.mp hx₂ with rfl | hx₂
            · obtain ⟨r, hr, he⟩ := List.mem_map.mp (hnewids_sub _ hx₁)
              exact hdup' r (List.mem_append_left _ hr) he
            · exact hdisj (hnewids_sub x hx₁) hx₂
        · intro b hb s hs
          obtain ⟨h₁, h₂⟩ := hnewmem b hb
          obtain ⟨a, ha, ⟨hyes, hno⟩⟩ := forall₂_mem_right hrep b h₁
          have hsa : ¬ isGoodPrice o a = true := by
            intro hga
            obtain ⟨hu, hsc⟩ := hyes hga
            exact h₂ (t10 hrest b hsc)
          have hse := hno hsa
          subst hse
          rcases (List.mem_orderedInsert _).mp hs with rfl | hs
          · have hap : b.price < o.price := by
              simp only [isGoodPrice, if_neg hbuy, decide_eq_true_eq] at hsa
              omega
            dsimp [OrderBookRecord.fromOrder]
            exact hap
          · exact hcross b ha s hs
        · rfl
        · refine ⟨?_, txsd, rfl, t9, t8, ?_, ?_⟩
          · dsimp only
            rw [if_neg hdup, hvol, sumQty_append, sumQty_append, hsumnew]
            have hIperm : (List.orderedInsert (recLE false)
                (OrderBookRecord.fromOrder { o with quantity := oq₂ }
                  (book.timestamp + 1)) book.sell).Perm
                (OrderBookRecord.fromOrder { o with quantity := oq₂ }
                  (book.timestamp + 1) :: book.sell) :=
              List.perm_orderedInsert _ _ _
            rw [sumQty_perm hIperm]
            simp only [sumQty, List.map_cons, List.sum_cons]
            dsimp [OrderBookRecord.fromOrder]
            omega
          · intro k
            simp only [againstOf_sell hbuy]
            rw [qtyOfKey_perm k hnewperm, qtyOfKey_filter_ne_zero]
            exact t7 k
          · simp only [againstOf_sell hbuy]
            exact t11

/-! ### Sequences of submissions -/

theorem volSum_append (l₁ l₂ : List Transaction) :
    volSum (l₁ ++ l₂) = volSum l₁ + volSum l₂ := by
  simp [volSum]

theorem runBook_main :
    ∀ (os : List Order) (book : OrderBook), Inv book →
      (∀ o ∈ os, 0 < o.quantity ∧ 0 < o.peak_size) →
      ∃ bf txs, runBook book os = some (bf, txs) ∧ Inv bf
  | [], book, hinv, _ => ⟨book, [], rfl, hinv⟩
  | o :: os, book, hinv, hvalid => by
    obtain ⟨hq, hpk⟩ := hvalid o (List.mem_cons_self _ _)
    obtain ⟨txs, b', heq, hinv', _, _, _⟩ := add_main book o hinv hq hpk
    obtain ⟨bf, txsf, heqr, hinvf⟩ :=
      runBook_main os b' hinv' (fun a ha => hvalid a (List.mem_cons_of_mem _ ha))
    refine ⟨bf, txs ++ txsf, ?_, hinvf⟩
    rw [runBook, heq]
    dsimp only
    rw [heqr]
    rfl

theorem runAccepted_main :
    ∀ (os : List Order) (book : OrderBook), Inv book →
      (∀ o ∈ os, 0 < o.quantity ∧ 0 < o.peak_size) →
      ∃ bf txs s, runAccepted book os = some (bf, txs, s) ∧ Inv bf ∧
        2 * volSum txs + sumQty (bf.buy ++ bf.sell) =
          sumQty (book.buy ++ book.sell) + s
  | [], book, hinv, _ =>
    ⟨book, [], 0, rfl, hinv, by simp [volSum]⟩
  | o :: os, book, hinv, hvalid => by
    obtain ⟨hq, hpk⟩ := hvalid o (List.mem_cons_self _ _)
    obtain ⟨txs, b', heq, hinv', _, hcons, _⟩ := add_main book o hinv hq hpk
    obtain ⟨bf, txsf, sf, heqr, hinvf, hconsf⟩ :=
      runAccepted_main os b' hinv'
        (fun a ha => hvalid a (List.mem_cons_of_mem _ ha))
    refine ⟨bf, txs ++ txsf,
      (if isDuplicate book o then 0 else o.quantity) + sf, ?_, hinvf, ?_⟩
    · rw [runAccepted, heq]
      dsimp only
      rw [heqr]
      rfl
    · rw [volSum_append]
      by_cases hdup : isDuplicate book o = true <;> simp [hdup] at hcons ⊢ <;>
        omega

/-! ### Claim theorems: invariants over submission sequences -/

/-- C1 (Conservation): for every sequence of `add` calls starting from
the empty book, no call raises, and twice the total volume of all
returned transactions plus the remaining quantity resting on both sides
equals the total submitted quantity of the accepted orders, where orders
rejected as duplicates contribute 0.  Since the statement quantifies
over every sequence of valid orders, it holds in particular after each
call of any longer sequence. -/
theorem conservation_claim (os : List Order)
    (hvalid : ∀ o ∈ os, 0 < o.quantity ∧ 0 < o.peak_size) :
    ∃ bf txs s, runAccepted OrderBook.empty os = some (bf, txs, s) ∧
      2 * volSum txs + sumQty (bf.buy ++ bf.sell) = s := by
  obtain ⟨bf, txs, s, heq, _, hcons⟩ :=
    runAccepted_main os OrderBook.empty Inv.empty hvalid
  refine ⟨bf, txs, s, heq, ?_⟩
  rw [hcons]
  simp [OrderBook.empty, sumQty]

theorem conservation_claim_witness :
    (∀ o ∈ [(⟨1, true, 10, 10, 3⟩ : Order), ⟨2, false, 10, 5, 5⟩,
        ⟨3, false, 12, 4, 4⟩], 0 < o.quantity ∧ 0 < o.peak_size) ∧
    ∃ bf txs s, runAccepted OrderBook.empty
        [(⟨1, true, 10, 10, 3⟩ : Order), ⟨2, false, 10, 5, 5⟩,
          ⟨3, false, 12, 4, 4⟩] = some (bf, txs, s) ∧
      2 * volSum txs + sumQty (bf.buy ++ bf.sell) = s :=
  ⟨by decide, conservation_claim _ (by decide)⟩

/-- C2 (Non-negativity): after every sequence of `add` calls with valid
orders from the empty book, no call raises — in particular the assertion
`record.quantity >= 0` of `__fix_empty_records` never fails — and every
resting entry has `0 ≤ quantity` and
`0 ≤ current_peak_size ≤ min max_peak_size quantity`. -/
theorem nonneg_claim (os : List Order)
    (hvalid : ∀ o ∈ os, 0 < o.quantity ∧ 0 < o.peak_size) :
    ∃ bf txs, runBook OrderBook.empty os = some (bf, txs) ∧
      ∀ r ∈ bf.buy ++ bf.sell, 0 ≤ r.quantity ∧ 0 ≤ r.current_peak_size ∧
        r.current_peak_size ≤ min r.max_peak_size r.quantity := by
  obtain ⟨bf, txs, heq, hrok, _, _⟩ :=
    runBook_main os OrderBook.empty Inv.empty hvalid
  refine ⟨bf, txs, heq, fun r hr => ?_⟩
  obtain ⟨h₁, h₂, h₃, h₄, _⟩ := hrok r hr
  exact ⟨le_of_lt h₁, le_of_lt h₂, le_min h₄ h₃⟩

theorem nonneg_claim_witness :
    (∀ o ∈ [(⟨1, true, 10, 10, 3⟩ : Order), ⟨2, false, 10, 5, 5⟩],
      0 < o.quantity ∧ 0 < o.peak_size) ∧
    ∃ bf txs, runBook OrderBook.empty
        [(⟨1, true, 10, 10, 3⟩ : Order), ⟨2, false, 10, 5, 5⟩] =
        some (bf, txs) ∧
      ∀ r ∈ bf.buy ++ bf.sell, 0 ≤ r.quantity ∧ 0 ≤ r.current_peak_size ∧
        r.current_peak_size ≤ min r.max_peak_size r.quantity :=
  ⟨by decide, nonneg_claim _ (by decide)⟩

/-- C5 (No self-cross persists): after every sequence of `add` calls
with valid orders from the empty book, the book never simultaneously
holds a resting buy entry and a resting sell entry whose buy price is
greater than or equal to the sell price. -/
theorem no_cross_claim (os : List Order)
    (hvalid : ∀ o ∈ os, 0 < o.quantity ∧ 0 < o.peak_size) :
    ∃ bf txs, runBook OrderBook.empty os = some (bf, txs) ∧
      ∀ b ∈ bf.buy, ∀ s ∈ bf.sell, ¬ b.price ≥ s.price := by
  obtain ⟨bf, txs, heq, _, _, hcr⟩ :=
    runBook_main os OrderBook.empty Inv.empty hvalid
  exact ⟨bf, txs, heq, fun b hb s hs hge => absurd (hcr b hb s hs) (by omega)⟩

theorem no_cross_claim_witness :
    (∀ o ∈ [(⟨1, true, 10, 5, 5⟩ : Order), ⟨2, false, 8, 9, 9⟩],
      0 < o.quantity ∧ 0 < o.peak_size) ∧
    ∃ bf txs, runBook OrderBook.empty
        [(⟨1, true, 10, 5, 5⟩ : Order), ⟨2, false, 8, 9, 9⟩] =
        some (bf, txs) ∧
      ∀ b ∈ bf.buy, ∀ s ∈ bf.sell, ¬ b.price ≥ s.price :=
  ⟨by decide, no_cross_claim _ (by decide)⟩

/-- C10 (No exception): for every sequence of `add` calls with orders of
positive quantity and positive maximum peak size, starting from the
empty book, no call raises any exception: in particular the
`transactions[(record.order_id, record.price)] += filled_quantity`
update of the hidden pass never raises `KeyError`, because the visible
pass has already created each key it reaches. -/
theorem no_exception_claim (os : List Order)
    (hvalid : ∀ o ∈ os, 0 < o.quantity ∧ 0 < o.peak_size) :
    (runBook OrderBook.empty os).isSome = true := by
  obtain ⟨bf, txs, heq, _⟩ :=
    runBook_main os OrderBook.empty Inv.empty hvalid
  rw [heq]
  rfl

theorem no_exception_claim_witness :
    (∀ o ∈ [(⟨1, true, 10, 10, 3⟩ : Order), ⟨2, true, 10, 5, 5⟩,
        ⟨3, false, 9, 20, 4⟩], 0 < o.quantity ∧ 0 < o.peak_size) ∧
    (runBook OrderBook.empty
      [(⟨1, true, 10, 10, 3⟩ : Order), ⟨2, true, 10, 5, 5⟩,
        ⟨3, false, 9, 20, 4⟩]).isSome = true :=
  ⟨by decide, no_exception_claim _ (by decide)⟩

/-! ### Claim C4: duplicate rejection -/

instance RecOK.decidable (r : OrderBookRecord) : Decidable (RecOK r) := by
  unfold RecOK; infer_instance

instance Inv.decidable (book : OrderBook) : Decidable (Inv book) := by
  unfold Inv; infer_instance

/-- C4 counterexample: submitting a duplicate id returns no transactions
and leaves both side queues unchanged, but the call does modify engine
state: the logical clock `timestamp` is incremented before the duplicate
scan runs, so the book is not byte-for-byte unchanged.  The book below
is reached from the empty book by one successful submission. -/
theorem duplicate_rejection_counterexample :
    OrderBook.empty.add ⟨1, true, 10, 5, 5⟩ =
      some ([], { buy := [⟨1, 10, 5, 5, 5, 1, 0⟩], sell := [], timestamp := 1 }) ∧
    OrderBook.add { buy := [⟨1, 10, 5, 5, 5, 1, 0⟩], sell := [], timestamp := 1 }
        ⟨1, true, 12, 4, 4⟩ =
      some ([], { buy := [⟨1, 10, 5, 5, 5, 1, 0⟩], sell := [], timestamp := 2 }) ∧
    ({ buy := [⟨1, 10, 5, 5, 5, 1, 0⟩], sell := [], timestamp := 2 } : OrderBook) ≠
      { buy := [⟨1, 10, 5, 5, 5, 1, 0⟩], sell := [], timestamp := 1 } := by
  refine ⟨by decide, by decide, ?_⟩
  intro h
  have := congrArg OrderBook.timestamp h
  simp at this

/-- C4 (amended): a call to `add` with an order whose id equals the id
of a resting entry returns the empty transaction list and leaves both
side queues unchanged — no entry is added, removed, or mutated — while
the logical clock is still incremented by one. -/
theorem duplicate_rejection_claim (book : OrderBook) (o : Order)
    (hdup : isDuplicate book o = true) :
    book.add o = some ([], { book with timestamp := book.timestamp + 1 }) := by
  rw [OrderBook.add]
  dsimp only
  rw [isDuplicate_timestamp, if_pos hdup]

theorem duplicate_rejection_claim_witness :
    isDuplicate { buy := [⟨1, 10, 5, 5, 5, 1, 0⟩], sell := [], timestamp := 1 }
        ⟨1, true, 12, 4, 4⟩ = true ∧
    OrderBook.add { buy := [⟨1, 10, 5, 5, 5, 1, 0⟩], sell := [], timestamp := 1 }
        ⟨1, true, 12, 4, 4⟩ =
      some ([], { buy := [⟨1, 10, 5, 5, 5, 1, 0⟩], sell := [], timestamp := 2 }) :=
  ⟨by decide, duplicate_rejection_claim _ _ (by decide)⟩

/-! ### Claims C3 and C6: the two fill passes -/

/-- C3 (Hidden-iceberg fill): during the hidden pass, an entry reached
with the order's outstanding quantity `oq` still positive is filled by
the full outstanding quantity when its remaining quantity strictly
exceeds it — its new visible size becoming
`min (max_peak_size - oq % max_peak_size) (quantity - filled)`, with
`quantity - filled` the remaining quantity after the fill — and by its
entire remaining quantity otherwise; in both cases its remaining
quantity drops by the fill, its priority timestamp is restamped with the
current clock, and the rest of the pass runs with the outstanding
quantity decreased by the fill. -/
theorem hidden_iceberg_fill_claim (ts oq : Int) (r : OrderBookRecord)
    (rs : List OrderBookRecord) (txs : TxDict)
    (hoq : 0 < oq) (hmx : 0 < r.max_peak_size)
    (hkey : (r.order_id, r.price) ∈ dictKeys txs) :
    ∃ filled txs',
      dictAdd (r.order_id, r.price) filled txs = some txs' ∧
      (r.quantity > oq → filled = oq) ∧
      (¬ r.quantity > oq → filled = r.quantity) ∧
      fillHiddenIcebergOrders ts oq (r :: rs) txs =
        (fillHiddenIcebergOrders ts (oq - filled) rs txs').map
          (fun out => (out.1,
            { r with
                current_peak_size :=
                  if r.quantity > oq then
                    min (r.max_peak_size - oq % r.max_peak_size)
                      (r.quantity - filled)
                  else r.current_peak_size,
                quantity := r.quantity - filled,
                timestamp := ts } :: out.2.1,
            out.2.2)) := by
  have hne : ¬ oq = 0 := by omega
  by_cases hgt : r.quantity > oq
  · have hmne : r.max_peak_size ≠ 0 := by omega
    obtain ⟨txs', hadd, _, _, _, _⟩ := @dictAdd_some _ oq _ hkey
    refine ⟨oq, txs', hadd, fun _ => rfl, fun h => absurd hgt h, ?_⟩
    rw [fillHiddenIcebergOrders, if_neg hne]
    simp only [if_pos hgt, if_neg hmne, hadd]
    cases hrec : fillHiddenIcebergOrders ts (oq - oq) rs txs' with
    | none => rfl
    | some out => rfl
  · obtain ⟨txs', hadd, _, _, _, _⟩ := @dictAdd_some _ r.quantity _ hkey
    refine ⟨r.quantity, txs', hadd, fun h => absurd h hgt, fun _ => rfl, ?_⟩
    rw [fillHiddenIcebergOrders, if_neg hne]
    simp only [if_neg hgt, hadd]
    cases hrec : fillHiddenIcebergOrders ts (oq - r.quantity) rs txs' with
    | none => rfl
    | some out => rfl

theorem hidden_iceberg_fill_claim_witness :
    (0 < (2:Int) ∧ 0 < (⟨1, 10, 7, 3, 0, 1, 0⟩ : OrderBookRecord).max_peak_size ∧
      ((1:Int), (10:Int)) ∈ dictKeys [(((1:Int), (10:Int)), (3:Int))]) ∧
    ∃ filled txs',
      dictAdd ((⟨1, 10, 7, 3, 0, 1, 0⟩ : OrderBookRecord).order_id,
          (⟨1, 10, 7, 3, 0, 1, 0⟩ : OrderBookRecord).price) filled
        [(((1:Int), (10:Int)), (3:Int))] = some txs' ∧
      ((⟨1, 10, 7, 3, 0, 1, 0⟩ : OrderBookRecord).quantity > 2 → filled = 2) ∧
      (¬ (⟨1, 10, 7, 3, 0, 1, 0⟩ : OrderBookRecord).quantity > 2 →
        filled = (⟨1, 10, 7, 3, 0, 1, 0⟩ : OrderBookRecord).quantity) ∧
      fillHiddenIcebergOrders 5 2 [⟨1, 10, 7, 3, 0, 1, 0⟩]
          [(((1:Int), (10:Int)), (3:Int))] =
        (fillHiddenIcebergOrders 5 (2 - filled) [] txs').map
          (fun out => (out.1,
            { (⟨1, 10, 7, 3, 0, 1, 0⟩ : OrderBookRecord) with
                current_peak_size :=
                  if (⟨1, 10, 7, 3, 0, 1, 0⟩ : OrderBookRecord).quantity > 2 then
                    min ((⟨1, 10, 7, 3, 0, 1, 0⟩ : OrderBookRecord).max_peak_size -
                        2 % (⟨1, 10, 7, 3, 0, 1, 0⟩ : OrderBookRecord).max_peak_size)
                      ((⟨1, 10, 7, 3, 0, 1, 0⟩ : OrderBookRecord).quantity - filled)
                  else (⟨1, 10, 7, 3, 0, 1, 0⟩ : OrderBookRecord).current_peak_size,
                quantity := (⟨1, 10, 7, 3, 0, 1, 0⟩ : OrderBookRecord).quantity - filled,
                timestamp := 5 } :: out.2.1,
            out.2.2)) :=
  ⟨⟨by decide, by decide, by decide⟩,
    hidden_iceberg_fill_claim 5 2 ⟨1, 10, 7, 3, 0, 1, 0⟩ []
      [(((1:Int), (10:Int)), (3:Int))] (by decide) (by decide) (by decide)⟩

/-- C6 (Visible-size fill pass): the first pass fills each reached entry
by exactly `min (current_peak_size) (outstanding)`, decrementing the
entry's visible size, its remaining quantity and the order's outstanding
quantity by that amount; it never consumes hidden quantity (the
difference `quantity - current_peak_size` of every entry is unchanged),
and if the order still needs quantity when the pass ends, every entry of
the level has visible size 0 — so the hidden pass never consumes hidden
quantity while an entry still shows visible quantity. -/
theorem visible_fill_pass_claim (oq : Int) (rs : List OrderBookRecord)
    (txs : TxDict) (h0 : 0 ≤ oq) (hok : ∀ r ∈ rs, RecOK r) :
    ∃ oq' rs' txs', fillVisiblePeakSizes oq rs txs = (oq', rs', txs') ∧
      0 ≤ oq' ∧ oq' ≤ oq ∧
      List.Forall₂ (fun r r' =>
        r.quantity - r'.quantity = r.current_peak_size - r'.current_peak_size ∧
        r'.quantity ≤ r.quantity) rs rs' ∧
      (∀ r rest, rs = r :: rest → oq ≠ 0 →
        oq' = (fillVisiblePeakSizes (oq - min r.current_peak_size oq) rest
          (dictSet (r.order_id, r.price) (min r.current_peak_size oq) txs)).1 ∧
        rs' = { r with
            current_peak_size := r.current_peak_size - min r.current_peak_size oq,
            quantity := r.quantity - min r.current_peak_size oq } ::
          (fillVisiblePeakSizes (oq - min r.current_peak_size oq) rest
            (dictSet (r.order_id, r.price) (min r.current_peak_size oq) txs)).2.1 ∧
        txs' = (fillVisiblePeakSizes (oq - min r.current_peak_size oq) rest
          (dictSet (r.order_id, r.price) (min r.current_peak_size oq) txs)).2.2) ∧
      (oq' ≠ 0 → ∀ r' ∈ rs', r'.current_peak_size = 0) := by
  obtain ⟨oq', rs', txs', heq, h1, h2, h3, _, h5, _⟩ :=
    fillVisible_shape oq rs txs h0 hok
  refine ⟨oq', rs', txs', heq, h1, h2, ?_, ?_, h5⟩
  · exact h3.imp (fun _ _ hab => ⟨hab.2.2.2.2.2.2.1, hab.2.2.2.2.2.1⟩)
  · rintro r rest rfl hne
    rw [fillVisiblePeakSizes, if_neg hne] at heq
    simp only [Prod.mk.injEq] at heq
    obtain ⟨e1, e2, e3⟩ := heq
    exact ⟨e1.symm, e2.symm, e3.symm⟩

theorem visible_fill_pass_claim_witness :
    (0 ≤ (4:Int) ∧
      (∀ r ∈ [(⟨1, 10, 5, 5, 3, 1, 0⟩ : OrderBookRecord), ⟨2, 10, 5, 5, 5, 1, 1⟩],
        RecOK r)) ∧
    ∃ oq' rs' txs',
      fillVisiblePeakSizes 4
        [(⟨1, 10, 5, 5, 3, 1, 0⟩ : OrderBookRecord), ⟨2, 10, 5, 5, 5, 1, 1⟩] [] =
        (oq', rs', txs') ∧
      0 ≤ oq' ∧ oq' ≤ 4 ∧
      List.Forall₂ (fun r r' =>
        r.quantity - r'.quantity = r.current_peak_size - r'.current_peak_size ∧
        r'.quantity ≤ r.quantity)
        [(⟨1, 10, 5, 5, 3, 1, 0⟩ : OrderBookRecord), ⟨2, 10, 5, 5, 5, 1, 1⟩] rs' ∧
      (∀ r rest,
        [(⟨1, 10, 5, 5, 3, 1, 0⟩ : OrderBookRecord), ⟨2, 10, 5, 5, 5, 1, 1⟩] =
          r :: rest → (4:Int) ≠ 0 →
        oq' = (fillVisiblePeakSizes (4 - min r.current_peak_size 4) rest
          (dictSet (r.order_id, r.price) (min r.current_peak_size 4) [])).1 ∧
        rs' = { r with
            current_peak_size := r.current_peak_size - min r.current_peak_size 4,
            quantity := r.quantity - min r.current_peak_size 4 } ::
          (fillVisiblePeakSizes (4 - min r.current_peak_size 4) rest
            (dictSet (r.order_id, r.price) (min r.current_peak_size 4) [])).2.1 ∧
        txs' = (fillVisiblePeakSizes (4 - min r.current_peak_size 4) rest
          (dictSet (r.order_id, r.price) (min r.current_peak_size 4) [])).2.2) ∧
      (oq' ≠ 0 → ∀ r' ∈ rs', r'.current_peak_size = 0) :=
  ⟨⟨by decide, by decide⟩,
    visible_fill_pass_claim 4
      [(⟨1, 10, 5, 5, 3, 1, 0⟩ : OrderBookRecord), ⟨2, 10, 5, 5, 5, 1, 1⟩] []
      (by decide) (by decide)⟩

/-! ### Claim C7: transaction aggregation -/

/-- Mapping each transaction of `buildTransactions` to its counterparty
key `(counterparty id, price)` recovers the keys of the fill dictionary
it was built from, in order. -/
theorem buildTransactions_keys (o : Order) (d : TxDict) :
    (buildTransactions o d).map
      (fun t => (if o.is_buy then t.sell_id else t.buy_id, t.price)) =
      dictKeys d := by
  unfold buildTransactions dictKeys
  rw [List.map_map]
  refine List.map_congr_left (fun kv _ => ?_)
  by_cases h : o.is_buy = true <;> simp [h]

/-- A lookup at the key of a member of a dictionary whose keys are
`Nodup` returns that member's value. -/
theorem dictGet_of_mem_nodup :
    ∀ {d : TxDict}, (dictKeys d).Nodup → ∀ kv ∈ d, dictGet kv.1 d = kv.2
  | [], _, kv, hkv => absurd hkv (List.not_mem_nil kv)
  | (k', v') :: rest, hnd, kv, hkv => by
    have hnd' : ¬ k' ∈ dictKeys rest ∧ (dictKeys rest).Nodup := by
      simpa [dictKeys] using hnd
    rcases List.mem_cons.mp hkv with rfl | hkv'
    · simp [dictGet]
    · have hne : ¬ k' = kv.1 := by
        intro he
        have hmem : kv.1 ∈ dictKeys rest := List.mem_map.mpr ⟨kv, hkv', rfl⟩
        rw [← he] at hmem
        exact hnd'.1 hmem
      rw [dictGet, if_neg hne]
      exact dictGet_of_mem_nodup hnd'.2 kv hkv'

/-- C7 (Transaction aggregation): one `add` call with a fresh order of
positive quantity and peak returns at most one transaction per distinct
(counterparty entry id, price) pair — the counterparty keys of the
returned list are `Nodup` — every returned transaction has volume
strictly greater than `0`, and each volume equals the total quantity
removed from the records carrying that counterparty key on the opposite
side over the whole call, i.e. the total filled against that
counterparty at that price across both fill passes. -/
theorem transaction_aggregation_claim (book : OrderBook) (o : Order)
    (hinv : Inv book) (hq : 0 < o.quantity) (hpk : 0 < o.peak_size) :
    ∃ txs b', book.add o = some (txs, b') ∧
      (txs.map
        (fun t => (if o.is_buy then t.sell_id else t.buy_id, t.price))).Nodup ∧
      (∀ t ∈ txs, 0 < t.volume) ∧
      (∀ t ∈ txs,
        t.volume =
          qtyOfKey (if o.is_buy then t.sell_id else t.buy_id, t.price)
            (againstOf o book) -
          qtyOfKey (if o.is_buy then t.sell_id else t.buy_id, t.price)
            (againstOf o b')) := by
  obtain ⟨txs, b', heq, _, _, _, txsd, htx, hknd, hpos, hget, _⟩ :=
    add_main book o hinv hq hpk
  subst htx
  refine ⟨_, b', heq, ?_, ?_, ?_⟩
  · rw [buildTransactions_keys]
    exact hknd
  · intro t ht
    obtain ⟨kv, hkv, rfl⟩ := List.mem_map.mp ht
    have hv : 0 < kv.2 := hpos kv hkv
    by_cases h : o.is_buy = true <;> simpa [h] using hv
  · intro t ht
    obtain ⟨kv, hkv, rfl⟩ := List.mem_map.mp ht
    have hlook : dictGet kv.1 txsd = kv.2 := dictGet_of_mem_nodup hknd kv hkv
    have hdiff := hget kv.1
    rw [hlook] at hdiff
    by_cases h : o.is_buy = true <;> simpa [h] using hdiff

theorem transaction_aggregation_claim_witness :
    Inv { buy := [], sell := [⟨1, 10, 10, 3, 3, 1, 0⟩], timestamp := 1 } ∧
    (0:Int) < (5:Int) ∧ (0:Int) < (5:Int) ∧
    (∃ txs b',
      OrderBook.add
          { buy := [], sell := [⟨1, 10, 10, 3, 3, 1, 0⟩], timestamp := 1 }
          ⟨2, true, 10, 5, 5⟩ = some (txs, b') ∧
      (txs.map
        (fun t => (if (⟨2, true, 10, 5, 5⟩ : Order).is_buy then t.sell_id
          else t.buy_id, t.price))).Nodup ∧
      (∀ t ∈ txs, 0 < t.volume) ∧
      (∀ t ∈ txs,
        t.volume =
          qtyOfKey (if (⟨2, true, 10, 5, 5⟩ : Order).is_buy then t.sell_id
              else t.buy_id, t.price)
            (againstOf ⟨2, true, 10, 5, 5⟩
              { buy := [], sell := [⟨1, 10, 10, 3, 3, 1, 0⟩], timestamp := 1 }) -
          qtyOfKey (if (⟨2, true, 10, 5, 5⟩ : Order).is_buy then t.sell_id
              else t.buy_id, t.price)
            (againstOf ⟨2, true, 10, 5, 5⟩ b'))) :=
  ⟨by decide, by decide, by decide,
    transaction_aggregation_claim
      { buy := [], sell := [⟨1, 10, 10, 3, 3, 1, 0⟩], timestamp := 1 }
      ⟨2, true, 10, 5, 5⟩ (by decide) (by decide) (by decide)⟩

/-! ### Claim C8: transaction emission order -/

/-- The priority order is compatible with the price rank of the side. -/
theorem recLE_rank_le {s : Bool} {a b : OrderBookRecord} (h : recLE s a b) :
    priceRank s a.price ≤ priceRank s b.price := by
  simp only [recLE, recKey, lex4] at h
  omega

/-- The price rank of a side is injective in the price. -/
theorem priceRank_inj {s : Bool} {p q : Int}
    (h : priceRank s p = priceRank s q) : p = q := by
  cases s <;> simp [priceRank] at h <;> omega

/-- In a sorted list `r :: rest`, once the leading block of records
priced at `r.price` ends, no later record carries that price again. -/
theorem sorted_dropWhile_price_ne {s : Bool} :
    ∀ {rest : List OrderBookRecord} {r : OrderBookRecord},
      List.Sorted (recLE s) (r :: rest) →
      ∀ x ∈ rest.dropWhile (fun y => y.price = r.price), ¬ x.price = r.price := by
  intro rest
  induction rest with
  | nil =>
    intro r _ x hx
    exact absurd hx (List.not_mem_nil x)
  | cons y ys ih =>
    intro r h x hx
    rw [List.dropWhile_cons] at hx
    by_cases hy : y.price = r.price
    · rw [if_pos (by simpa using hy)] at hx
      have h' : List.Sorted (recLE s) (r :: ys) := by
        rcases List.sorted_cons.mp h with ⟨hr, hys⟩
        exact List.sorted_cons.mpr
          ⟨fun z hz => hr z (List.mem_cons_of_mem _ hz),
            (List.sorted_cons.mp hys).2⟩
      exact ih h' x hx
    · rw [if_neg (by simpa using hy)] at hx
      rcases List.mem_cons.mp hx with rfl | hxy
      · exact hy
      · rcases List.sorted_cons.mp h with ⟨hr, hys⟩
        have h1 : recLE s r y := hr y (List.mem_cons_self y ys)
        have h2 : recLE s y x := (List.sorted_cons.mp hys).1 x hxy
        have hr1 := recLE_rank_le h1
        have hr2 := recLE_rank_le h2
        intro he
        have hxr : priceRank s x.price = priceRank s r.price := by rw [he]
        have hyr : priceRank s y.price = priceRank s r.price := by omega
        exact hy (priceRank_inj hyr)

/-- Splitting off the leading equal-price block: in a sorted tail, the
records at the head's price together with the records at prices not yet
seen after the head's price is recorded make up exactly the records at
prices not yet seen. -/
theorem grouping_step {s : Bool} {r : OrderBookRecord}
    {rest : List OrderBookRecord}
    (h : List.Sorted (recLE s) (r :: rest)) (seen : List Int)
    (hseen : ¬ r.price ∈ seen) :
    rest.filter (fun x => x.price = r.price) ++
      rest.filter (fun x => ¬ x.price ∈ seen ++ [r.price]) =
      rest.filter (fun x => ¬ x.price ∈ seen) := by
  have hsplit := List.takeWhile_append_dropWhile
    (fun y : OrderBookRecord => y.price = r.price) rest
  have hT : ∀ x ∈ rest.takeWhile (fun y => y.price = r.price),
      x.price = r.price := by
    intro x hx
    have hpx := List.mem_takeWhile_imp hx
    simpa using hpx
  have hD : ∀ x ∈ rest.dropWhile (fun y => y.price = r.price),
      ¬ x.price = r.price := sorted_dropWhile_price_ne h
  have hA1 : (rest.takeWhile (fun y => y.price = r.price)).filter
      (fun x => x.price = r.price) =
      rest.takeWhile (fun y => y.price = r.price) :=
    List.filter_eq_self.mpr (fun a ha => by simpa using hT a ha)
  have hA2 : (rest.dropWhile (fun y => y.price = r.price)).filter
      (fun x => x.price = r.price) = [] := by
    rw [List.filter_eq_nil_iff]
    intro a ha hpa
    exact hD a ha (by simpa using hpa)
  have hB1 : (rest.takeWhile (fun y => y.price = r.price)).filter
      (fun x => ¬ x.price ∈ seen ++ [r.price]) = [] := by
    rw [List.filter_eq_nil_iff]
    intro a ha hpa
    have hap : a.price = r.price := hT a ha
    simp [hap] at hpa
  have hB2 : (rest.dropWhile (fun y => y.price = r.price)).filter
      (fun x => ¬ x.price ∈ seen ++ [r.price]) =
      (rest.dropWhile (fun y => y.price = r.price)).filter
      (fun x => ¬ x.price ∈ seen) := by
    refine List.filter_congr (fun a ha => ?_)
    have hne := hD a ha
    simp [List.mem_append, hne]
  have hC1 : (rest.takeWhile (fun y => y.price = r.price)).filter
      (fun x => ¬ x.price ∈ seen) =
      rest.takeWhile (fun y => y.price = r.price) := by
    refine List.filter_eq_self.mpr (fun a ha => ?_)
    have hap : a.price = r.price := hT a ha
    simpa [hap] using hseen
  rw [← hsplit]
  simp only [List.filter_append]
  rw [hA1, hA2, hB1, hB2, hC1]
  simp

/-- Grouping a sorted list by the first occurrences of its prices: the
per-price filters, concatenated in first-touch order, reproduce the list
itself (restricted to prices not yet seen). -/
theorem grouping {s : Bool} :
    ∀ {l : List OrderBookRecord} (seen : List Int),
      List.Sorted (recLE s) l →
      ((firstOccs seen (l.map (fun x => x.price))).map
        (fun p => l.filter (fun x => x.price = p))).flatten =
      l.filter (fun x => ¬ x.price ∈ seen)
  | [], seen, _ => by simp [firstOccs]
  | r :: rest, seen, h => by
    have hsr : List.Sorted (recLE s) rest := (List.sorted_cons.mp h).2
    simp only [List.map_cons]
    by_cases hs : r.price ∈ seen
    · simp only [firstOccs]
      rw [if_pos hs]
      have hmapcong : (firstOccs seen (rest.map (fun x => x.price))).map
          (fun p => (r :: rest).filter (fun x => x.price = p)) =
          (firstOccs seen (rest.map (fun x => x.price))).map
          (fun p => rest.filter (fun x => x.price = p)) := by
        refine List.map_congr_left (fun p hp => ?_)
        have hnp : ¬ p ∈ seen := (mem_firstOccs.mp hp).2
        have hne : ¬ r.price = p := fun he => hnp (he ▸ hs)
        rw [List.filter_cons, if_neg (by simpa using hne)]
      rw [hmapcong, grouping seen hsr, List.filter_cons,
        if_neg (by simpa using hs)]
    · simp only [firstOccs]
      rw [if_neg hs]
      rw [List.map_cons, List.flatten_cons]
      have hhead : (r :: rest).filter (fun x => x.price = r.price) =
          r :: rest.filter (fun x => x.price = r.price) := by
        rw [List.filter_cons, if_pos (by simp)]
      have hmapcong : (firstOccs (seen ++ [r.price])
            (rest.map (fun x => x.price))).map
          (fun p => (r :: rest).filter (fun x => x.price = p)) =
          (firstOccs (seen ++ [r.price]) (rest.map (fun x => x.price))).map
          (fun p => rest.filter (fun x => x.price = p)) := by
        refine List.map_congr_left (fun p hp => ?_)
        have hnp : ¬ p ∈ seen ++ [r.price] := (mem_firstOccs.mp hp).2
        have hne : ¬ r.price = p := by
          intro he
          exact hnp (by simp [← he])
        rw [List.filter_cons, if_neg (by simpa using hne)]
      rw [hhead, hmapcong, grouping (seen ++ [r.price]) hsr]
      rw [List.filter_cons, if_pos (by simpa using hs), List.cons_append]
      rw [grouping_step h seen hs]

/-- On a sorted candidate list, walking the unique prices in order and
concatenating each level's keys reproduces the keys of the candidate
list in its own order. -/
theorem walkKeys_sorted {s : Bool} {l : List OrderBookRecord}
    (h : List.Sorted (recLE s) l) :
    walkKeys (uniqueList (l.map (fun x => x.price))) l = l.map recKeyId := by
  unfold walkKeys
  rw [uniqueList_eq_firstOccs]
  have hcomp : (fun p => (l.filter (fun x => x.price = p)).map recKeyId) =
      (List.map recKeyId ∘ fun p => l.filter (fun x => x.price = p)) := rfl
  rw [hcomp, ← List.map_map, ← List.map_flatten, @grouping s l [] h]
  have hall : l.filter (fun x => ¬ x.price ∈ ([] : List Int)) = l :=
    List.filter_eq_self.mpr (fun a _ => by simp)
  rw [hall]

/-- C8 (Transaction emission order): when the opposite side rests in its
priority order — best price rank first, then queue priority within a
level — the transactions returned by one `add` call list the
counterparties in exactly the order the matching walk first touches
them: the transactions' counterparty keys are a prefix (`take n`) of the
crossable records' keys in book order, so best price level first, queue
order within each level, with no re-sorting afterwards. -/
theorem emission_order_claim (book : OrderBook) (o : Order)
    (hinv : Inv book) (hq : 0 < o.quantity) (hpk : 0 < o.peak_size)
    (hsorted : List.Sorted (recLE (!o.is_buy)) (againstOf o book)) :
    ∃ txs b' n, book.add o = some (txs, b') ∧
      txs.map (fun t => (if o.is_buy then t.sell_id else t.buy_id, t.price)) =
        (((againstOf o book).filter (isGoodPrice o)).map recKeyId).take n := by
  obtain ⟨txs, b', heq, _, _, _, txsd, htx, _, _, _, n, hpre⟩ :=
    add_main book o hinv hq hpk
  subst htx
  refine ⟨_, b', n, heq, ?_⟩
  have hsc : List.Sorted (recLE (!o.is_buy))
      ((againstOf o book).filter (isGoodPrice o)) :=
    hsorted.sublist (List.filter_sublist _)
  rw [buildTransactions_keys, hpre, walkKeys_sorted hsc]

theorem emission_order_claim_witness :
    Inv { buy := [], sell := [⟨1, 10, 5, 5, 5, 1, 0⟩, ⟨2, 11, 5, 5, 5, 1, 0⟩], timestamp := 1 } ∧
    (0:Int) < (8:Int) ∧ (0:Int) < (8:Int) ∧
    List.Sorted (recLE (! (⟨3, true, 12, 8, 8⟩ : Order).is_buy))
      (againstOf ⟨3, true, 12, 8, 8⟩
        { buy := [], sell := [⟨1, 10, 5, 5, 5, 1, 0⟩, ⟨2, 11, 5, 5, 5, 1, 0⟩], timestamp := 1 }) ∧
    (∃ txs b' n,
      OrderBook.add
          { buy := [], sell := [⟨1, 10, 5, 5, 5, 1, 0⟩, ⟨2, 11, 5, 5, 5, 1, 0⟩], timestamp := 1 }
          ⟨3, true, 12, 8, 8⟩ = some (txs, b') ∧
      txs.map (fun t => (if (⟨3, true, 12, 8, 8⟩ : Order).is_buy then t.sell_id
        else t.buy_id, t.price)) =
        (((againstOf ⟨3, true, 12, 8, 8⟩
            { buy := [], sell := [⟨1, 10, 5, 5, 5, 1, 0⟩, ⟨2, 11, 5, 5, 5, 1, 0⟩], timestamp := 1 }).filter
          (isGoodPrice ⟨3, true, 12, 8, 8⟩)).map recKeyId).take n) :=
  ⟨by decide, by decide, by decide, by decide,
    emission_order_claim
      { buy := [], sell := [⟨1, 10, 5, 5, 5, 1, 0⟩, ⟨2, 11, 5, 5, 5, 1, 0⟩], timestamp := 1 }
      ⟨3, true, 12, 8, 8⟩ (by decide) (by decide) (by decide) (by decide)⟩

/-! ### Claim C9: time-priority scenario -/

/-- C9 counterexample: A (id 1, price 10, quantity 10, peak 3) and B
(id 2, price 10, quantity 5, peak 5) rest in that order; a crossing sell
of quantity 5 — strictly less than A's remaining quantity 10 — also
fills 2 lots against B, because A's visible size is only 3 and the
visible pass moves on to B before A's hidden quantity is reached; B's
record is mutated, refuting "fills only against A, B untouched". -/
theorem time_priority_counterexample :
    runBook OrderBook.empty [⟨1, true, 10, 10, 3⟩, ⟨2, true, 10, 5, 5⟩] =
      some ({ buy := [⟨1, 10, 10, 3, 3, 1, 0⟩, ⟨2, 10, 5, 5, 5, 2, 0⟩], sell := [], timestamp := 2 }, []) ∧
    (0:Int) < (5:Int) ∧ (5:Int) < (10:Int) ∧
    OrderBook.add { buy := [⟨1, 10, 10, 3, 3, 1, 0⟩, ⟨2, 10, 5, 5, 5, 2, 0⟩], sell := [], timestamp := 2 }
        ⟨3, false, 10, 5, 5⟩ =
      some ([⟨1, 3, 10, 3⟩, ⟨2, 3, 10, 2⟩],
        { buy := [⟨2, 10, 3, 5, 3, 2, 0⟩, ⟨1, 10, 7, 3, 3, 3, 0⟩], sell := [], timestamp := 3 }) ∧
    (∃ t ∈ [(⟨1, 3, 10, 3⟩ : Transaction), ⟨2, 3, 10, 2⟩], t.buy_id = 2 ∧ 0 < t.volume) ∧
    ¬ (⟨2, 10, 5, 5, 5, 2, 0⟩ : OrderBookRecord) ∈
        [(⟨2, 10, 3, 5, 3, 2, 0⟩ : OrderBookRecord), ⟨1, 10, 7, 3, 3, 3, 0⟩] := by
  decide

/-- C9 (corrected, Time-priority scenario): with exactly two resting
buys A then B at the same price and an incoming crossing sell whose
quantity is at most A's *visible* size (and strictly less than A's
remaining quantity), the call returns exactly one transaction, fully
against A, and B still rests with every field unchanged.  The original
claim's hypothesis `quantity < A.quantity` alone is not enough — see the
counterexample — the fill must also fit inside A's currently displayed
peak, because the visible pass walks on to B once A's peak is consumed. -/
theorem time_priority_claim (book : OrderBook) (o : Order)
    (A B : OrderBookRecord)
    (hbuy : book.buy = [A, B]) (hsell : book.sell = [])
    (hpeq : B.price = A.price)
    (hAok : RecOK A) (hBok : RecOK B)
    (ho : o.is_buy = false) (hop : o.price ≤ A.price)
    (hoq : 0 < o.quantity)
    (hle : o.quantity ≤ A.current_peak_size)
    (hlt : o.quantity < A.quantity)
    (hf1 : ¬ A.order_id = o.order_id) (hf2 : ¬ B.order_id = o.order_id) :
    ∃ b', book.add o =
        some ([{ buy_id := A.order_id, sell_id := o.order_id, price := A.price, volume := o.quantity }], b') ∧
      B ∈ b'.buy ∧ b'.sell = [] := by
  obtain ⟨hB1, hB2, hB3, hB4, hB5⟩ := hBok
  have hne : ¬ o.quantity = 0 := by omega
  have hmin : min A.current_peak_size o.quantity = o.quantity := by omega
  have h1 : fillVisiblePeakSizes o.quantity [A, B] [] =
      (0, [{ A with current_peak_size := A.current_peak_size - o.quantity, quantity := A.quantity - o.quantity }, B], [((A.order_id, A.price), o.quantity)]) := by
    simp [fillVisiblePeakSizes, hne, hmin, dictSet]
  have hAq : ¬ A.quantity - o.quantity < 0 := by omega
  have hBq : ¬ B.quantity < 0 := by omega
  have hBcps : ¬ B.current_peak_size = 0 := by omega
  have h3 : ∃ Af, fixEmptyRecords (book.timestamp + 1) 0
      [{ A with current_peak_size := A.current_peak_size - o.quantity, quantity := A.quantity - o.quantity }, B] = some [Af, B] ∧
      Af.quantity = A.quantity - o.quantity := by
    by_cases hc : A.current_peak_size - o.quantity = 0
    · exact ⟨{ A with current_peak_size := min (A.quantity - o.quantity) A.max_peak_size, quantity := A.quantity - o.quantity, timestamp := book.timestamp + 1, order_priority := 0 },
        by simp [fixEmptyRecords, hAq, hBq, hc, hBcps], rfl⟩
    · exact ⟨{ A with current_peak_size := A.current_peak_size - o.quantity, quantity := A.quantity - o.quantity },
        by simp [fixEmptyRecords, hAq, hBq, hc, hBcps], rfl⟩
  obtain ⟨Af, h3eq, h3q⟩ := h3
  have h4 : List.filter (fun x => x.price = A.price) [A, B] = [A, B] := by
    simp [hpeq]
  have h4b : replaceBy (fun x => x.price = A.price) [A, B] [Af, B] = [Af, B] := by
    simp [replaceBy, hpeq]
  have h5 : processLevels (book.timestamp + 1) [A.price] o.quantity [A, B] [] =
      some (0, [Af, B], [((A.order_id, A.price), o.quantity)]) := by
    simp only [processLevels, if_neg hne, h4, h1]
    simp only [fillHiddenIcebergOrders, if_true]
    rw [h3eq]
    simp only [h4b, processLevels]
  have hgA : isGoodPrice o A = true := by simp [isGoodPrice, ho, hop]
  have hgB : isGoodPrice o B = true := by simp [isGoodPrice, ho, hpeq, hop]
  have hcands : List.filter (isGoodPrice o) [A, B] = [A, B] := by
    simp [List.filter_cons, hgA, hgB]
  have huniq : uniqueList [A.price, B.price] = [A.price] := by
    simp [uniqueList, hpeq]
  have hAfq : ¬ Af.quantity = 0 := by omega
  have hBq0 : ¬ B.quantity = 0 := by omega
  have hfq : List.filter (fun x => x.quantity ≠ 0) [Af, B] = [Af, B] := by
    simp [hAfq, hBq0]
  have hrep2 : replaceBy (isGoodPrice o) [A, B] [Af, B] = [Af, B] := by
    simp [replaceBy, hgA, hgB]
  have h6 : tryToFillAnOrder (book.timestamp + 1) o { book with timestamp := book.timestamp + 1 } =
      some (0, { book with timestamp := book.timestamp + 1, buy := List.insertionSort (recLE true) [Af, B] },
        [{ buy_id := A.order_id, sell_id := o.order_id, price := A.price, volume := o.quantity }]) := by
    rw [tryToFillAnOrder]
    simp only [ho, Bool.false_eq_true, if_false, hbuy, hcands, huniq, h5, hrep2, hfq,
      buildTransactions, List.map_cons, List.map_nil, Bool.not_false]
  have hdupf : isDuplicate { book with timestamp := book.timestamp + 1 } o = false := by
    simp [isDuplicate, hbuy, hsell, hf1, hf2]
  refine ⟨{ book with timestamp := book.timestamp + 1, buy := List.insertionSort (recLE true) [Af, B] }, ?_, ?_, ?_⟩
  · rw [OrderBook.add]
    dsimp only
    rw [hdupf]
    simp only [Bool.false_eq_true, if_false]
    rw [h6]
    simp
  · show B ∈ List.insertionSort (recLE true) [Af, B]
    exact ((List.perm_insertionSort (recLE true) [Af, B]).mem_iff).mpr (by simp)
  · show book.sell = []
    exact hsell

theorem time_priority_claim_witness :
    ({ buy := [⟨1, 10, 10, 3, 3, 1, 0⟩, ⟨2, 10, 5, 5, 5, 2, 0⟩], sell := [], timestamp := 2 } : OrderBook).buy =
      [⟨1, 10, 10, 3, 3, 1, 0⟩, ⟨2, 10, 5, 5, 5, 2, 0⟩] ∧
    ({ buy := [⟨1, 10, 10, 3, 3, 1, 0⟩, ⟨2, 10, 5, 5, 5, 2, 0⟩], sell := [], timestamp := 2 } : OrderBook).sell = [] ∧
    (⟨2, 10, 5, 5, 5, 2, 0⟩ : OrderBookRecord).price = (⟨1, 10, 10, 3, 3, 1, 0⟩ : OrderBookRecord).price ∧
    RecOK ⟨1, 10, 10, 3, 3, 1, 0⟩ ∧ RecOK ⟨2, 10, 5, 5, 5, 2, 0⟩ ∧
    (⟨3, false, 10, 3, 3⟩ : Order).is_buy = false ∧
    (⟨3, false, 10, 3, 3⟩ : Order).price ≤ (⟨1, 10, 10, 3, 3, 1, 0⟩ : OrderBookRecord).price ∧
    (0:Int) < (⟨3, false, 10, 3, 3⟩ : Order).quantity ∧
    (⟨3, false, 10, 3, 3⟩ : Order).quantity ≤ (⟨1, 10, 10, 3, 3, 1, 0⟩ : OrderBookRecord).current_peak_size ∧
    (⟨3, false, 10, 3, 3⟩ : Order).quantity < (⟨1, 10, 10, 3, 3, 1, 0⟩ : OrderBookRecord).quantity ∧
    ¬ (⟨1, 10, 10, 3, 3, 1, 0⟩ : OrderBookRecord).order_id = (⟨3, false, 10, 3, 3⟩ : Order).order_id ∧
    ¬ (⟨2, 10, 5, 5, 5, 2, 0⟩ : OrderBookRecord).order_id = (⟨3, false, 10, 3, 3⟩ : Order).order_id ∧
    (∃ b', OrderBook.add { buy := [⟨1, 10, 10, 3, 3, 1, 0⟩, ⟨2, 10, 5, 5, 5, 2, 0⟩], sell := [], timestamp := 2 }
        ⟨3, false, 10, 3, 3⟩ =
        some ([{ buy_id := (⟨1, 10, 10, 3, 3, 1, 0⟩ : OrderBookRecord).order_id, sell_id := (⟨3, false, 10, 3, 3⟩ : Order).order_id, price := (⟨1, 10, 10, 3, 3, 1, 0⟩ : OrderBookRecord).price, volume := (⟨3, false, 10, 3, 3⟩ : Order).quantity }], b') ∧
      (⟨2, 10, 5, 5, 5, 2, 0⟩ : OrderBookRecord) ∈ b'.buy ∧ b'.sell = []) :=
  ⟨by decide, by decide, by decide, by decide, by decide, by decide, by decide,
    by decide, by decide, by decide, by decide, by decide,
    time_priority_claim
      { buy := [⟨1, 10, 10, 3, 3, 1, 0⟩, ⟨2, 10, 5, 5, 5, 2, 0⟩], sell := [], timestamp := 2 }
      ⟨3, false, 10, 3, 3⟩ ⟨1, 10, 10, 3, 3, 1, 0⟩ ⟨2, 10, 5, 5, 5, 2, 0⟩
      (by decide) (by decide) (by decide) (by decide) (by decide) (by decide)
      (by decide) (by decide) (by decide) (by decide) (by decide) (by decide)⟩

end OrderBookModel
